import Mathlib

/-!
# Verification of the Wordle bot core (`src/enhanced-bot.ts` and helpers)

A shallow embedding, in Lean 4, of the constraint-tracking and guess-selection
engine of the `EnhancedAIWordleBot` TypeScript class, together with the
dictionary-validation service (`src/services/dictionary.ts`) and the LRU cache
(`src/utils/lru-cache.ts`).  Words are lists of characters, per-letter feedback
is the three-valued `Fb` type, JavaScript `Map`/`Record` objects that the code
only reads through `get`/`[]` and insertion-order iteration are modelled as
insertion-ordered association lists, and JavaScript `Set`s as
insertion-ordered duplicate-free lists.  All numeric scores computed by the
code with JavaScript numbers are modelled over `ℝ` (the only non-integer
constants involved, `1.5`, `0.7`, `0.3`, `0.8`, `0.6`, and `Math.log2`, are
exact or ideal-real here).
-/

namespace WordleBot

/-- Per-letter feedback: `correct` (🟩), `present` (🟨), `absent` (⬜). -/
inductive Fb where
  | correct : Fb
  | present : Fb
  | absent  : Fb
deriving DecidableEq, Repr

/-- A word is a list of (upper-case) characters. -/
abbrev Word := List Char

/-! ## Insertion-ordered association lists (JS `Map` / plain-object model)

JavaScript `Map`s and plain objects iterate keys in insertion order, and
overwriting an existing key keeps its original position.  `mapSet` reproduces
exactly that; `mapGet` is `Map.get` / property lookup. -/

/-- JS `map.get(k)` / `obj[k]`: first binding of `k`, if any. -/
def mapGet {α β : Type} [DecidableEq α] (m : List (α × β)) (k : α) : Option β :=
  (m.find? (fun e => e.1 = k)).map (·.2)

/-- JS `map.set(k, v)` / `obj[k] = v`: overwrite in place, else append. -/
def mapSet {α β : Type} [DecidableEq α] (m : List (α × β)) (k : α) (v : β) :
    List (α × β) :=
  match m with
  | [] => [(k, v)]
  | e :: rest => if e.1 = k then (k, v) :: rest else e :: mapSet rest k v

/-- JS `set.add(x)`: append unless already a member (keeps insertion order). -/
def setAdd {α : Type} [DecidableEq α] (s : List α) (x : α) : List α :=
  if x ∈ s then s else s ++ [x]

/-! ## Outcome Simulator — `EnhancedAIWordleBot.computePattern`

```ts
private computePattern(guess: string, secret: string): string {
  const result = new Array(guess.length).fill("⬜");
  const secretLetters = new Map<string, number>();
  for (const char of secret)
    secretLetters.set(char, (secretLetters.get(char) || 0) + 1);
  // First pass: Mark correct positions (green)
  for (let i = 0; i < guess.length; i++)
    if (guess[i] === secret[i]) {
      result[i] = "🟩";
      secretLetters.set(guess[i], (secretLetters.get(guess[i]) || 1) - 1);
    }
  // Second pass: Mark present letters (yellow)
  for (let i = 0; i < guess.length; i++) {
    const count = secretLetters.get(guess[i]) || 0;
    if (result[i] === "⬜" && count > 0) {
      result[i] = "🟨";
      secretLetters.set(guess[i], count - 1);
    }
  }
  return result.join("");
}
```

The letter-count map is only accessed through `get`-with-default and `set`,
so it is modelled as a function `Char → ℕ`.  The per-cell marker strings are
modelled by `Fb` (`join` is injective on fixed-length marker sequences).
The passes are defined over the position-wise pairing of guess and secret;
all words handled by the bot (and all claims below) have equal lengths. -/

/-- Letter multiset of a word, as a counting function (`secretLetters`). -/
def countsOf (w : Word) : Char → Nat :=
  w.foldl (fun m c => fun x => if x = c then m c + 1 else m x) (fun _ => 0)

/-- Pointwise update of a counting function. -/
def updCount (m : Char → Nat) (c : Char) (n : Nat) : Char → Nat :=
  fun x => if x = c then n else m x

/-- First pass of `computePattern` over `guess.zip secret`: green marks plus
the remaining letter budget.  `(secretLetters.get(g) || 1) - 1` is rendered
with JavaScript falsiness: a stored `0` triggers the `|| 1` default. -/
def pass1 : List (Char × Char) → (Char → Nat) → List Fb × (Char → Nat)
  | [], m => ([], m)
  | (g, s) :: rest, m =>
    if g = s then
      let c := m g
      let m' := updCount m g ((if c = 0 then 1 else c) - 1)
      let (fbs, mf) := pass1 rest m'
      (Fb.correct :: fbs, mf)
    else
      let (fbs, mf) := pass1 rest m
      (Fb.absent :: fbs, mf)

/-- Second pass of `computePattern` over the guess letters paired with the
first-pass marks. -/
def pass2 : List (Char × Fb) → (Char → Nat) → List Fb
  | [], _ => []
  | (g, fb) :: rest, m =>
    if fb = Fb.absent ∧ m g > 0 then
      Fb.present :: pass2 rest (updCount m g (m g - 1))
    else
      fb :: pass2 rest m

/-- `EnhancedAIWordleBot.computePattern`, the outcome simulator
(named `simulateFeedback` in the specification). -/
def computePattern (guess secret : Word) : List Fb :=
  let p1 := pass1 (guess.zip secret) (countsOf secret)
  pass2 (guess.zip p1.1) p1.2

/-! ### Claim C4 — simulator self-consistency -/

theorem pass1_self (w : Word) (m : Char → Nat) :
    (pass1 (w.zip w) m).1 = List.replicate w.length Fb.correct := by
  induction w generalizing m with
  | nil => simp [pass1]
  | cons c rest ih =>
    simp only [List.zip_cons_cons, pass1, if_pos rfl, List.length_cons,
      List.replicate_succ]
    exact congrArg (Fb.correct :: ·) (ih _)

theorem pass2_no_absent (l : List (Char × Fb)) (m : Char → Nat)
    (h : ∀ e ∈ l, e.2 ≠ Fb.absent) : pass2 l m = l.map (·.2) := by
  induction l generalizing m with
  | nil => simp [pass2]
  | cons e rest ih =>
    have he : e.2 ≠ Fb.absent := h e (List.mem_cons_self e rest)
    simp only [pass2]
    rw [if_neg (by simp [he])]
    simp only [List.map_cons]
    exact congrArg (e.2 :: ·) (ih _ (fun x hx => h x (List.mem_cons_of_mem e hx)))

/-- **C4** Simulator self-consistency: simulating the feedback of guessing `w`
against secret `w` returns a pattern that is `correct` at every position. -/
theorem computePattern_self (w : Word) :
    computePattern w w = List.replicate w.length Fb.correct := by
  show pass2 (w.zip (pass1 (w.zip w) (countsOf w)).1) (pass1 (w.zip w) (countsOf w)).2
      = List.replicate w.length Fb.correct
  rw [pass1_self]
  rw [pass2_no_absent]
  · rw [List.map_snd_zip _ _ (by simp)]
  · intro e he
    have := List.of_mem_zip he
    have h2 := this.2
    simp only [List.mem_replicate] at h2
    rw [h2.2]
    intro hc
    exact Fb.noConfusion hc

/-! ### Claim C2 — simulator over-count bound -/

/-- Number of positions at which the pattern `pat` marks the guess letter `ch`
with feedback `fb`. -/
def letterMarkCount (guess : Word) (pat : List Fb) (ch : Char) (fb : Fb) : Nat :=
  ((guess.zip pat).filter (fun e => e.1 = ch ∧ e.2 = fb)).length

/-- Number of zipped positions that are green (guess letter = secret letter)
and carry the letter `ch`. -/
def greensZ (ch : Char) (l : List (Char × Char)) : Nat :=
  l.countP (fun p => p.1 = ch ∧ p.1 = p.2)

theorem countsOf_eq_count (w : Word) (ch : Char) : countsOf w ch = w.count ch := by
  suffices h : ∀ (w : Word) (m : Char → Nat) (ch : Char),
      w.foldl (fun m c => fun x => if x = c then m c + 1 else m x) m ch
        = m ch + w.count ch by
    simpa using h w (fun _ => 0) ch
  intro w
  induction w with
  | nil => simp
  | cons c rest ih =>
    intro m ch
    rw [List.foldl_cons, ih, List.count_cons]
    by_cases hc : ch = c
    · subst hc; simp; omega
    · simp [hc, if_neg (by simpa using hc), beq_iff_eq, Ne.symm hc]

theorem pass1_marks (l : List (Char × Char)) (m : Char → Nat) :
    (pass1 l m).1 = l.map (fun p => if p.1 = p.2 then Fb.correct else Fb.absent) := by
  induction l generalizing m with
  | nil => simp [pass1]
  | cons p rest ih =>
    obtain ⟨g, s⟩ := p
    by_cases h : g = s <;> simp [pass1, h, ih]

theorem greensZ_cons_green {g s : Char} (hgs : g = s) (rest : List (Char × Char))
    (c : Char) :
    greensZ c ((g, s) :: rest) = greensZ c rest + (if g = c then 1 else 0) := by
  by_cases hgc : g = c <;> simp [greensZ, List.countP_cons, hgs, hgc]

theorem greensZ_cons_notgreen {g s : Char} (hgs : ¬ g = s) (rest : List (Char × Char))
    (c : Char) : greensZ c ((g, s) :: rest) = greensZ c rest := by
  simp [greensZ, List.countP_cons, hgs]

theorem pass1_budget (l : List (Char × Char)) (m : Char → Nat)
    (h : ∀ ch, greensZ ch l ≤ m ch) (ch : Char) :
    (pass1 l m).2 ch = m ch - greensZ ch l := by
  induction l generalizing m with
  | nil => simp [pass1, greensZ]
  | cons p rest ih =>
    obtain ⟨g, s⟩ := p
    by_cases hgs : g = s
    · have hmg : 1 ≤ m g := by
        have := h g
        rw [greensZ_cons_green hgs rest g, if_pos rfl] at this
        omega
      have hcond : ¬ (m g = 0) := by omega
      have hstep : (pass1 ((g, s) :: rest) m).2
          = (pass1 rest (updCount m g (m g - 1))).2 := by
        simp only [pass1, if_pos hgs]
        rw [if_neg hcond]
      rw [hstep]
      have hinv : ∀ c, greensZ c rest ≤ updCount m g (m g - 1) c := by
        intro c
        have hc := h c
        rw [greensZ_cons_green hgs rest c] at hc
        by_cases hcg : c = g
        · rw [hcg] at hc ⊢
          rw [if_pos rfl] at hc
          have e0 : updCount m g (m g - 1) g = m g - 1 := by simp [updCount]
          rw [e0]
          omega
        · have : ¬ g = c := fun hh => hcg hh.symm
          rw [if_neg this] at hc
          simpa only [updCount, if_neg hcg] using hc
      rw [ih _ hinv, greensZ_cons_green hgs rest ch]
      by_cases hcg : ch = g
      · rw [hcg]
        have e1 : updCount m g (m g - 1) g = m g - 1 := by simp [updCount]
        rw [e1, if_pos rfl]
        omega
      · have hgc : ¬ g = ch := fun hh => hcg hh.symm
        rw [if_neg hgc]
        have e1 : updCount m g (m g - 1) ch = m ch := by simp [updCount, hcg]
        rw [e1]
        omega
    · have hstep : (pass1 ((g, s) :: rest) m).2 = (pass1 rest m).2 := by
        simp only [pass1, if_neg hgs]
      rw [hstep, greensZ_cons_notgreen hgs rest ch]
      exact ih m (fun c => (greensZ_cons_notgreen hgs rest c) ▸ h c)

theorem pass2_correct_count (j : List (Char × Fb)) (m : Char → Nat) (ch : Char) :
    ((j.map Prod.fst).zip (pass2 j m)).countP (fun e => e.1 = ch ∧ e.2 = Fb.correct)
        = j.countP (fun e => e.1 = ch ∧ e.2 = Fb.correct) := by
  induction j generalizing m with
  | nil => simp [pass2]
  | cons e rest ih =>
    obtain ⟨g, fb⟩ := e
    by_cases hc : fb = Fb.absent ∧ m g > 0
    · have hstep : pass2 ((g, fb) :: rest) m
          = Fb.present :: pass2 rest (updCount m g (m g - 1)) := by
        simp only [pass2, if_pos hc]
      rw [hstep, List.map_cons, List.zip_cons_cons, List.countP_cons,
        List.countP_cons, ih]
      have h1 : ¬ ((g, Fb.present).1 = ch ∧ (g, Fb.present).2 = Fb.correct) := by simp
      have h2 : ¬ ((g, fb).1 = ch ∧ (g, fb).2 = Fb.correct) := by simp [hc.1]
      simp [h1, h2]
    · have hstep : pass2 ((g, fb) :: rest) m = fb :: pass2 rest m := by
        simp only [pass2, if_neg hc]
      rw [hstep, List.map_cons, List.zip_cons_cons, List.countP_cons,
        List.countP_cons, ih]

theorem pass2_present_count (j : List (Char × Fb)) (m : Char → Nat) (ch : Char) :
    ((j.map Prod.fst).zip (pass2 j m)).countP (fun e => e.1 = ch ∧ e.2 = Fb.present)
        ≤ j.countP (fun e => e.1 = ch ∧ e.2 = Fb.present) + m ch := by
  induction j generalizing m with
  | nil => simp [pass2]
  | cons e rest ih =>
    obtain ⟨g, fb⟩ := e
    by_cases hc : fb = Fb.absent ∧ m g > 0
    · have hstep : pass2 ((g, fb) :: rest) m
          = Fb.present :: pass2 rest (updCount m g (m g - 1)) := by
        simp only [pass2, if_pos hc]
      rw [hstep, List.map_cons, List.zip_cons_cons, List.countP_cons,
        List.countP_cons]
      have h2 : ¬ ((g, fb).1 = ch ∧ (g, fb).2 = Fb.present) := by
        simp [hc.1]
      have ihm := ih (updCount m g (m g - 1))
      by_cases hcg : g = ch
      · have hm' : updCount m g (m g - 1) ch = m ch - 1 := by
          rw [← hcg]; simp [updCount]
        rw [hm'] at ihm
        have hmg : 1 ≤ m ch := by rw [← hcg]; exact hc.2
        simp [hcg, hc.1] at ihm ⊢
        omega
      · have hm' : updCount m g (m g - 1) ch = m ch := by
          have : ¬ ch = g := fun hh => hcg hh.symm
          simp [updCount, this]
        rw [hm'] at ihm
        simp [hcg, hc.1] at ihm ⊢
        omega
    · have hstep : pass2 ((g, fb) :: rest) m = fb :: pass2 rest m := by
        simp only [pass2, if_neg hc]
      rw [hstep, List.map_cons, List.zip_cons_cons, List.countP_cons,
        List.countP_cons]
      have ihm := ih m
      by_cases hP : ((g, fb).1 = ch ∧ (g, fb).2 = Fb.present)
      · simp [hP.1, hP.2] at ihm ⊢
        omega
      · simp at ihm ⊢
        by_cases hg : g = ch
        · have hfb : ¬ fb = Fb.present := fun hh => hP ⟨hg, hh⟩
          simp [hg, hfb] at ihm ⊢
          omega
        · simp [hg] at ihm ⊢
          omega

theorem greensZ_le_counts (guess secret : Word) (hlen : guess.length = secret.length)
    (ch : Char) : greensZ ch (guess.zip secret) ≤ countsOf secret ch := by
  rw [countsOf_eq_count, List.count_eq_countP]
  have h1 : greensZ ch (guess.zip secret)
      ≤ (guess.zip secret).countP (fun p => p.2 == ch) := by
    apply List.countP_mono_left
    intro a _ ha
    simp only [decide_eq_true_eq] at ha
    simp [← ha.2, ha.1]
  refine le_trans h1 (le_of_eq ?_)
  have h2 : (guess.zip secret).map Prod.snd = secret :=
    List.map_snd_zip guess secret (le_of_eq hlen.symm)
  calc (guess.zip secret).countP (fun p => p.2 == ch)
      = ((guess.zip secret).map Prod.snd).countP (fun x => x == ch) := by
        rw [List.countP_map]; rfl
    _ = secret.countP (fun x => x == ch) := by rw [h2]

/-- **C2** Simulator over-count bound: for every guess/secret pair of equal
length and every letter, the number of positions `computePattern` marks
`correct` plus the number it marks `present` for that letter is at most the
number of occurrences of that letter in the secret. -/
theorem computePattern_no_overcount (guess secret : Word)
    (hlen : guess.length = secret.length) (ch : Char) :
    letterMarkCount guess (computePattern guess secret) ch Fb.correct
      + letterMarkCount guess (computePattern guess secret) ch Fb.present
      ≤ countsOf secret ch := by
  have hzlen : (guess.zip secret).length = guess.length := by
    simp [List.length_zip, hlen]
  set l := guess.zip secret with hl
  set m0 := countsOf secret with hm0
  have hgreens : ∀ c, greensZ c l ≤ m0 c := fun c => greensZ_le_counts guess secret hlen c
  -- the first pass marks exactly the green cells and decrements their letters
  have hmarks : (pass1 l m0).1
      = l.map (fun p => if p.1 = p.2 then Fb.correct else Fb.absent) := pass1_marks l m0
  have hbudget : (pass1 l m0).2 ch = m0 ch - greensZ ch l := pass1_budget l m0 hgreens ch
  -- the list fed to the second pass
  set j := guess.zip (pass1 l m0).1 with hj
  have hfst : l.map Prod.fst = guess := List.map_fst_zip guess secret (le_of_eq hlen)
  have hjeq : j = l.map (fun p => (p.1, if p.1 = p.2 then Fb.correct else Fb.absent)) := by
    rw [hj, hmarks, ← hfst]
    rw [List.zip_map' Prod.fst (fun p => if p.1 = p.2 then Fb.correct else Fb.absent) l]
  have hjfst : j.map Prod.fst = guess := by
    rw [hjeq, List.map_map]
    simpa using hfst
  have hcp : computePattern guess secret = pass2 j (pass1 l m0).2 := rfl
  -- correct / present counts of j
  have hjc : j.countP (fun e => e.1 = ch ∧ e.2 = Fb.correct) = greensZ ch l := by
    rw [hjeq, List.countP_map, greensZ]
    apply List.countP_congr
    intro p _
    by_cases h : p.1 = p.2 <;> simp [h, Function.comp]
  have hjp : j.countP (fun e => e.1 = ch ∧ e.2 = Fb.present) = 0 := by
    rw [hjeq, List.countP_map, List.countP_eq_zero]
    intro p _
    by_cases h : p.1 = p.2 <;> simp [h, Function.comp]
  have hc := pass2_correct_count j (pass1 l m0).2 ch
  have hp := pass2_present_count j (pass1 l m0).2 ch
  rw [hjfst] at hc hp
  rw [hjc] at hc
  rw [hjp, hbudget] at hp
  have hlm : letterMarkCount guess (computePattern guess secret) ch Fb.correct
      = (guess.zip (pass2 j (pass1 l m0).2)).countP (fun e => e.1 = ch ∧ e.2 = Fb.correct) := by
    rw [letterMarkCount, List.countP_eq_length_filter, hcp]
  have hlm2 : letterMarkCount guess (computePattern guess secret) ch Fb.present
      = (guess.zip (pass2 j (pass1 l m0).2)).countP (fun e => e.1 = ch ∧ e.2 = Fb.present) := by
    rw [letterMarkCount, List.countP_eq_length_filter, hcp]
  rw [hlm, hlm2, hc]
  have := hgreens ch
  omega

/-- Witness for C2: the specification's own duplicate-letter example,
guess `"SPEED"` against secret `"ABIDE"`, at the letter `E` (the secret has
one `E`; the pattern marks at most one of the guess's two `E`s). -/
theorem computePattern_no_overcount_witness :
    ("SPEED".toList.length = "ABIDE".toList.length)
    ∧ letterMarkCount "SPEED".toList (computePattern "SPEED".toList "ABIDE".toList) 'E' Fb.correct
      + letterMarkCount "SPEED".toList (computePattern "SPEED".toList "ABIDE".toList) 'E' Fb.present
      ≤ countsOf "ABIDE".toList 'E' :=
  ⟨by decide, computePattern_no_overcount "SPEED".toList "ABIDE".toList (by decide) 'E'⟩

/-! ## Feedback Interpreter — `EnhancedAIWordleBot.analyzeResults`

The bot reads, from each `GuessResult`, only `result.result` and the guess
letter `guess[index]`, so a feedback record is modelled as a `List Fb`
indexed in step with the guess.  The `GuessAnalysis` fields mirror the
TypeScript object (its unused `constraints: []` array is omitted; the local
`bannedPos` record built in the first pass of `analyzeResults` is dead code
— it is never stored in the returned analysis — and is likewise omitted). -/

structure GuessAnalysis where
  correct : List Char
  present : List Char
  absent : List Char
  positions : List (Nat × Char)
  letterCounts : List (Char × (Nat × Option Nat))
deriving DecidableEq, Repr

/-- The empty analysis object `analyzeResults` starts from. -/
def emptyAnalysis : GuessAnalysis :=
  { correct := [], present := [], absent := [], positions := [], letterCounts := [] }

/-- `Array.from(results).filter((r, i) => guess[i] === char &&
(r.result === "correct" || r.result === "present")).length` — the count of
correct/present occurrences of `ch` across the whole feedback record. -/
def knownCount (guess : Word) (results : List Fb) (ch : Char) : Nat :=
  ((guess.zip results).filter
    (fun e => e.1 = ch ∧ (e.2 = Fb.correct ∨ e.2 = Fb.present))).length

/-- One step of the first pass of `analyzeResults` at index `i`; `ch` is
`guess[index]` and `fb` is `result.result`. -/
def fpStep (guess : Word) (results : List Fb) (a : GuessAnalysis) (i : Nat)
    (ch : Char) (fb : Fb) : GuessAnalysis :=
  match fb with
  | Fb.correct =>
      { a with correct := setAdd a.correct ch, positions := mapSet a.positions i ch }
  | Fb.present =>
      let a1 := { a with present := setAdd a.present ch }
      if (mapGet a1.letterCounts ch).isNone then
        { a1 with letterCounts := mapSet a1.letterCounts ch (1, none) }
      else a1
  | Fb.absent =>
      if ch ∉ a.correct ∧ ch ∉ a.present then
        { a with absent := setAdd a.absent ch }
      else
        let kc := knownCount guess results ch
        { a with letterCounts := mapSet a.letterCounts ch (kc, some kc) }

/-- First pass of `analyzeResults` (`results.forEach((result, index) => …)`,
with `guess[index]` paired position-wise against the feedback record). -/
def firstPassGo (guess : Word) (results : List Fb) :
    Nat → List (Char × Fb) → GuessAnalysis → GuessAnalysis
  | _, [], a => a
  | i, (ch, fb) :: rest, a =>
      firstPassGo guess results (i + 1) rest (fpStep guess results a i ch fb)

/-- Number of positions of `ch` in the guess carrying feedback `fb`
(the lengths of the `charResults[char].correct/present/absent` arrays). -/
def charFbCount (guess : Word) (results : List Fb) (ch : Char) (fb : Fb) : Nat :=
  ((guess.zip results).filter (fun e => e.1 = ch ∧ e.2 = fb)).length

/-- Second pass of `analyzeResults`: the per-character constraint rebuild of
`letterCounts` (`for (let char in charResults) { … }`, visiting the guess's
distinct characters in first-occurrence order). -/
def secondPassStep (guess : Word) (results : List Fb)
    (lc : List (Char × (Nat × Option Nat))) (ch : Char) :
    List (Char × (Nat × Option Nat)) :=
  let cC := charFbCount guess results ch Fb.correct
  let cP := charFbCount guess results ch Fb.present
  let cA := charFbCount guess results ch Fb.absent
  let lc1 := if cC + cP > 0 then mapSet lc ch (cC + cP, none) else lc
  if cA > 0 ∧ cC = 0 ∧ cP = 0 then mapSet lc1 ch (0, some 0) else lc1

/-- `EnhancedAIWordleBot.analyzeResults`. -/
def analyzeResults (guess : Word) (results : List Fb) : GuessAnalysis :=
  let a := firstPassGo guess results 0 (guess.zip results) emptyAnalysis
  let chars := guess.foldl setAdd []
  { a with letterCounts := chars.foldl (secondPassStep guess results) a.letterCounts }

/-! ## Constraint Model — `EnhancedAIWordleBot.normalizeConstraints`

`this.wordLength` is `config.game.wordLength = 5`.  The `greens` array is a
length-5 array of `null`s overwritten at green positions (`List.set` is a
no-op for out-of-range positions; all feedback handled by the bot has
length 5, matching the claims below).  JS `undefined` reads beyond the
array are conflated with `null` here; no claim below exercises them. -/

def wordLength : Nat := 5

structure NormalizedConstraints where
  greens : List (Option Char)
  minCounts : List (Char × Nat)
  maxCounts : List (Char × Nat)
  bannedPos : List (Char × List Nat)
  forbidden : List Char
  testedLetters : List Char
deriving DecidableEq, Repr

/-- One step of the `analysis.positions.forEach` loop of
`normalizeConstraints`: record the green, bump the letter's minimum count,
mark the letter tested. -/
def greensStep (st : List (Option Char) × List (Char × Nat) × List Char)
    (e : Nat × Char) : List (Option Char) × List (Char × Nat) × List Char :=
  (st.1.set e.1 (some e.2),
   mapSet st.2.1 e.2 ((mapGet st.2.1 e.2).getD 0 + 1),
   setAdd st.2.2 e.2)

/-- One step of the `analysis.present.forEach` loop of
`normalizeConstraints`.  State: (minCounts, bannedPos, testedLetters). -/
def presentStep (a : GuessAnalysis) (greens : List (Option Char))
    (st : List (Char × Nat) × List (Char × List Nat) × List Char) (ch : Char) :
    List (Char × Nat) × List (Char × List Nat) × List Char :=
  let mc := mapSet st.1 ch
    (max ((mapGet st.1 ch).getD 0 + 1) ((a.positions.filter (fun e => e.2 = ch)).length))
  let bp0 : List Nat := (mapGet st.2.1 ch).getD []
  -- "Find positions where this yellow letter appeared and was incorrect":
  -- the loop in fact bans every position that is not a green of `ch`
  let bp := (List.range wordLength).foldl
    (fun s i =>
      if greens.getD i none ≠ some ch ∧ mapGet a.positions i ≠ some ch then
        setAdd s i
      else s) bp0
  (mc, mapSet st.2.1 ch bp, setAdd st.2.2 ch)

/-- One step of the `analysis.absent.forEach` loop of `normalizeConstraints`.
State: (maxCounts, forbidden, testedLetters). -/
def absentStep (minCounts : List (Char × Nat))
    (st : List (Char × Nat) × List Char × List Char) (ch : Char) :
    List (Char × Nat) × List Char × List Char :=
  if (mapGet minCounts ch).getD 0 = 0 then
    (st.1, setAdd st.2.1 ch, setAdd st.2.2 ch)
  else
    (mapSet st.1 ch ((mapGet minCounts ch).getD 0), st.2.1, setAdd st.2.2 ch)

/-- The body of `normalizeConstraints` before the final validation loop:
greens/min-counts from `analysis.positions`, then the `analysis.present`
loop (min counts, banned positions), then the `analysis.absent` loop
(forbidden letters and max counts). -/
def buildConstraints (a : GuessAnalysis) : NormalizedConstraints :=
  -- Process greens first to establish baseline counts
  let st0 := a.positions.foldl greensStep (List.replicate wordLength none, [], [])
  let greens := st0.1
  -- Process present letters (yellows)
  let st1 := a.present.foldl (presentStep a greens) (st0.2.1, [], st0.2.2)
  let minCounts := st1.1
  -- Process absent letters and determine max counts
  let st2 := a.absent.foldl (absentStep minCounts) ([], [], st1.2.2)
  { greens := greens
    minCounts := minCounts
    maxCounts := st2.1
    bannedPos := st1.2.1
    forbidden := st2.2.1
    testedLetters := st2.2.2 }

/-- The final validation loop of `normalizeConstraints`
(`Object.entries(maxCounts).forEach(…)`, throwing on the first letter whose
minimum exceeds its maximum; the thrown `Error` message also carries the
letter and the two counts, which the model drops). -/
def validateConstraints (c : NormalizedConstraints) :
    Except String NormalizedConstraints :=
  match c.maxCounts.find? (fun e => (mapGet c.minCounts e.1).getD 0 > e.2) with
  | some _ => Except.error "Impossible constraints"
  | none => Except.ok c

/-- `EnhancedAIWordleBot.normalizeConstraints` (build, validate, return). -/
def normalizeConstraints (a : GuessAnalysis) : Except String NormalizedConstraints :=
  validateConstraints (buildConstraints a)

/-! ## Candidate Filter — the in-memory predicate of
`EnhancedAIWordleBot.filterWords`

`(word.match(new RegExp(char, "g")) || []).length` is the number of
occurrences of the letter in the word, i.e. `countsOf`.  Out-of-range
`word[pos]` reads compare a placeholder character (never an upper-case
letter) against the constraint letter, matching JS `undefined !== char`. -/

/-- The filter callback of `filterWords` for one word. -/
def wordPasses (c : NormalizedConstraints) (word : Word) : Bool :=
  -- Check forbidden letters
  c.forbidden.all (fun ch => !(word.contains ch)) &&
  -- Check green letters (correct positions)
  (List.range word.length).all (fun i =>
    match c.greens.getD i none with
    | none => true
    | some g => word.getD i ' ' == g) &&
  -- Check minimum letter counts
  c.minCounts.all (fun e => e.2 ≤ countsOf word e.1) &&
  -- Check maximum letter counts
  c.maxCounts.all (fun e => countsOf word e.1 ≤ e.2) &&
  -- Check banned positions for yellow letters
  c.bannedPos.all (fun e => e.2.all (fun pos => !(word.getD pos ' ' == e.1)))

/-- The pure, in-memory filtering stage of `filterWords` (before dictionary
validation and the synthesis fallback). -/
def filterWordsCore (c : NormalizedConstraints) (pool : List Word) : List Word :=
  pool.filter (wordPasses c)

/-! ### Basic lemmas about the JS map/set models -/

theorem mapGet_cons {α β : Type} [DecidableEq α] (e : α × β) (m : List (α × β))
    (k : α) : mapGet (e :: m) k = if e.1 = k then some e.2 else mapGet m k := by
  by_cases h : e.1 = k <;> simp [mapGet, List.find?, h]

theorem mapGet_mapSet_self {α β : Type} [DecidableEq α] (m : List (α × β)) (k : α)
    (v : β) : mapGet (mapSet m k v) k = some v := by
  induction m with
  | nil => simp [mapGet, mapSet]
  | cons e rest ih =>
    by_cases h : e.1 = k
    · simp [mapSet, h, mapGet_cons]
    · simp only [mapSet, if_neg h]
      rw [mapGet_cons, if_neg h, ih]

theorem mapGet_mapSet_ne {α β : Type} [DecidableEq α] (m : List (α × β)) (k k' : α)
    (v : β) (h : ¬ k = k') : mapGet (mapSet m k v) k' = mapGet m k' := by
  induction m with
  | nil => simp [mapGet, mapSet, List.find?, h]
  | cons e rest ih =>
    by_cases he : e.1 = k
    · simp only [mapSet, if_pos he]
      rw [mapGet_cons, mapGet_cons, if_neg h, if_neg (by rwa [he])]
    · simp only [mapSet, if_neg he]
      rw [mapGet_cons, mapGet_cons, ih]

theorem mem_setAdd {α : Type} [DecidableEq α] (s : List α) (x y : α) :
    x ∈ setAdd s y ↔ x ∈ s ∨ x = y := by
  by_cases h : y ∈ s
  · simp only [setAdd, if_pos h]
    constructor
    · exact fun hx => Or.inl hx
    · rintro (hx | hx)
      · exact hx
      · exact hx ▸ h
  · simp [setAdd, if_neg h]

theorem setAdd_nodup {α : Type} [DecidableEq α] (s : List α) (y : α)
    (h : s.Nodup) : (setAdd s y).Nodup := by
  by_cases hm : y ∈ s
  · simpa [setAdd, hm] using h
  · simp only [setAdd, if_neg hm]
    simpa [List.nodup_append] using ⟨h, fun hy => hm hy⟩

/-! ### Claim C3 — duplicate-letter disambiguation

The first pass of `analyzeResults` adds a letter to `analysis.absent` only
if, at the moment its `absent` cell is processed, the letter has not yet been
seen as correct/present — that is, iff the letter's *first* occurrence in the
guess carries `absent` feedback.  Only letters in `analysis.absent` ever
receive a `maxCounts` entry in `normalizeConstraints`. -/

/-- The first occurrence of `ch` in the zipped guess/feedback list carries
`absent` feedback. -/
def absentFirst (ch : Char) : List (Char × Fb) → Bool
  | [] => false
  | (g, fb) :: rest => if g = ch then decide (fb = Fb.absent) else absentFirst ch rest

theorem firstPassGo_correct_mem (guess : Word) (results : List Fb)
    (l : List (Char × Fb)) (i : Nat) (a : GuessAnalysis) (x : Char) :
    x ∈ (firstPassGo guess results i l a).correct
      ↔ x ∈ a.correct ∨ ∃ e ∈ l, e.1 = x ∧ e.2 = Fb.correct := by
  induction l generalizing i a with
  | nil => simp [firstPassGo]
  | cons e rest ih =>
    obtain ⟨g, fb⟩ := e
    simp only [firstPassGo]
    cases fb with
    | correct =>
      rw [ih]
      simp only [fpStep, mem_setAdd]
      constructor
      · rintro ((hx | hx) | ⟨e, he, hex⟩)
        · exact Or.inl hx
        · exact Or.inr ⟨(g, Fb.correct), by simp, by simp [hx.symm]⟩
        · exact Or.inr ⟨e, List.mem_cons_of_mem _ he, hex⟩
      · rintro (hx | ⟨e, he, hex⟩)
        · exact Or.inl (Or.inl hx)
        · rcases List.mem_cons.mp he with he1 | he2
          · exact Or.inl (Or.inr (by rw [he1] at hex; exact hex.1.symm))
          · exact Or.inr ⟨e, he2, hex⟩
    | present =>
      rw [ih]
      have hcor : (fpStep guess results a i g Fb.present).correct = a.correct := by
        simp only [fpStep]
        split <;> rfl
      rw [hcor]
      constructor
      · rintro (hx | ⟨e, he, hex⟩)
        · exact Or.inl hx
        · exact Or.inr ⟨e, List.mem_cons_of_mem _ he, hex⟩
      · rintro (hx | ⟨e, he, hex⟩)
        · exact Or.inl hx
        · rcases List.mem_cons.mp he with he1 | he2
          · rw [he1] at hex; exact absurd hex.2 (by simp)
          · exact Or.inr ⟨e, he2, hex⟩
    | absent =>
      rw [ih]
      have hcor : (fpStep guess results a i g Fb.absent).correct = a.correct := by
        simp only [fpStep]
        split <;> rfl
      rw [hcor]
      constructor
      · rintro (hx | ⟨e, he, hex⟩)
        · exact Or.inl hx
        · exact Or.inr ⟨e, List.mem_cons_of_mem _ he, hex⟩
      · rintro (hx | ⟨e, he, hex⟩)
        · exact Or.inl hx
        · rcases List.mem_cons.mp he with he1 | he2
          · rw [he1] at hex; exact absurd hex.2 (by simp)
          · exact Or.inr ⟨e, he2, hex⟩

theorem fpStep_present_correct (guess : Word) (results : List Fb)
    (a : GuessAnalysis) (i : Nat) (ch : Char) :
    (fpStep guess results a i ch Fb.present).correct = a.correct := by
  simp only [fpStep]; split <;> rfl

theorem fpStep_present_present (guess : Word) (results : List Fb)
    (a : GuessAnalysis) (i : Nat) (ch : Char) :
    (fpStep guess results a i ch Fb.present).present = setAdd a.present ch := by
  simp only [fpStep]; split <;> rfl

theorem fpStep_present_absent (guess : Word) (results : List Fb)
    (a : GuessAnalysis) (i : Nat) (ch : Char) :
    (fpStep guess results a i ch Fb.present).absent = a.absent := by
  simp only [fpStep]; split <;> rfl

theorem fpStep_present_positions (guess : Word) (results : List Fb)
    (a : GuessAnalysis) (i : Nat) (ch : Char) :
    (fpStep guess results a i ch Fb.present).positions = a.positions := by
  simp only [fpStep]; split <;> rfl

theorem fpStep_absent_correct (guess : Word) (results : List Fb)
    (a : GuessAnalysis) (i : Nat) (ch : Char) :
    (fpStep guess results a i ch Fb.absent).correct = a.correct := by
  simp only [fpStep]; split <;> rfl

theorem fpStep_absent_present (guess : Word) (results : List Fb)
    (a : GuessAnalysis) (i : Nat) (ch : Char) :
    (fpStep guess results a i ch Fb.absent).present = a.present := by
  simp only [fpStep]; split <;> rfl

theorem fpStep_absent_positions (guess : Word) (results : List Fb)
    (a : GuessAnalysis) (i : Nat) (ch : Char) :
    (fpStep guess results a i ch Fb.absent).positions = a.positions := by
  simp only [fpStep]; split <;> rfl

theorem exists_cons_ne {g : Char} {fb fb' : Fb} {rest : List (Char × Fb)} {x : Char}
    (hne : ¬ fb = fb') :
    (∃ e ∈ (g, fb) :: rest, e.1 = x ∧ e.2 = fb') ↔ ∃ e ∈ rest, e.1 = x ∧ e.2 = fb' := by
  constructor
  · rintro ⟨e, he, hex⟩
    rcases List.mem_cons.mp he with he1 | he2
    · rw [he1] at hex; exact absurd hex.2 hne
    · exact ⟨e, he2, hex⟩
  · rintro ⟨e, he, hex⟩
    exact ⟨e, List.mem_cons_of_mem _ he, hex⟩

theorem exists_cons_self {g : Char} {fb : Fb} {rest : List (Char × Fb)} {x : Char} :
    (∃ e ∈ (g, fb) :: rest, e.1 = x ∧ e.2 = fb)
      ↔ g = x ∨ ∃ e ∈ rest, e.1 = x ∧ e.2 = fb := by
  constructor
  · rintro ⟨e, he, hex⟩
    rcases List.mem_cons.mp he with he1 | he2
    · rw [he1] at hex; exact Or.inl hex.1
    · exact Or.inr ⟨e, he2, hex⟩
  · rintro (hx | ⟨e, he, hex⟩)
    · exact ⟨(g, fb), by simp, hx, rfl⟩
    · exact ⟨e, List.mem_cons_of_mem _ he, hex⟩

theorem firstPassGo_present_mem (guess : Word) (results : List Fb)
    (l : List (Char × Fb)) (i : Nat) (a : GuessAnalysis) (x : Char) :
    x ∈ (firstPassGo guess results i l a).present
      ↔ x ∈ a.present ∨ ∃ e ∈ l, e.1 = x ∧ e.2 = Fb.present := by
  induction l generalizing i a with
  | nil => simp [firstPassGo]
  | cons e rest ih =>
    obtain ⟨g, fb⟩ := e
    simp only [firstPassGo]
    rw [ih]
    cases fb with
    | correct =>
      have hp : (fpStep guess results a i g Fb.correct).present = a.present := rfl
      rw [hp, exists_cons_ne (by simp)]
    | present =>
      rw [fpStep_present_present, exists_cons_self, mem_setAdd]
      tauto
    | absent =>
      rw [fpStep_absent_present, exists_cons_ne (by simp)]

theorem firstPassGo_absent_mem (guess : Word) (results : List Fb)
    (l : List (Char × Fb)) (i : Nat) (a : GuessAnalysis) (x : Char) :
    x ∈ (firstPassGo guess results i l a).absent
      ↔ x ∈ a.absent
        ∨ (x ∉ a.correct ∧ x ∉ a.present ∧ absentFirst x l = true) := by
  induction l generalizing i a with
  | nil => simp [firstPassGo, absentFirst]
  | cons e rest ih =>
    obtain ⟨g, fb⟩ := e
    simp only [firstPassGo]
    rw [ih]
    cases fb with
    | correct =>
      have habs : (fpStep guess results a i g Fb.correct).absent = a.absent := rfl
      have hcor : (fpStep guess results a i g Fb.correct).correct
          = setAdd a.correct g := rfl
      have hpre : (fpStep guess results a i g Fb.correct).present = a.present := rfl
      rw [habs, hcor, hpre]
      simp only [absentFirst, mem_setAdd]
      by_cases hxg : g = x
      · rw [if_pos hxg]
        simp [hxg]
      · rw [if_neg hxg]
        have : ¬ x = g := fun hh => hxg hh.symm
        tauto
    | present =>
      rw [fpStep_present_absent, fpStep_present_correct, fpStep_present_present]
      simp only [absentFirst, mem_setAdd]
      by_cases hxg : g = x
      · rw [if_pos hxg]
        simp [hxg]
      · rw [if_neg hxg]
        have : ¬ x = g := fun hh => hxg hh.symm
        tauto
    | absent =>
      rw [fpStep_absent_correct, fpStep_absent_present]
      simp only [absentFirst]
      by_cases hcond : g ∉ a.correct ∧ g ∉ a.present
      · have habs : (fpStep guess results a i g Fb.absent).absent
            = setAdd a.absent g := by
          simp only [fpStep, if_pos hcond]
        rw [habs]
        simp only [mem_setAdd]
        by_cases hxg : g = x
        · rw [if_pos hxg, decide_eq_true_eq]
          rw [← hxg]
          tauto
        · rw [if_neg hxg]
          have : ¬ x = g := fun hh => hxg hh.symm
          tauto
      · have habs : (fpStep guess results a i g Fb.absent).absent = a.absent := by
          simp only [fpStep, if_neg hcond]
        rw [habs]
        by_cases hxg : g = x
        · rw [if_pos hxg, decide_eq_true_eq]
          rw [← hxg]
          simp only [not_and_or, not_not] at hcond
          tauto
        · rw [if_neg hxg]

theorem mapSet_append {α β : Type} [DecidableEq α] (m : List (α × β)) (k : α)
    (v : β) (h : ∀ e ∈ m, e.1 ≠ k) : mapSet m k v = m ++ [(k, v)] := by
  induction m with
  | nil => rfl
  | cons e rest ih =>
    have he : e.1 ≠ k := h e (List.mem_cons_self e rest)
    simp only [mapSet, if_neg he, List.cons_append]
    rw [ih (fun x hx => h x (List.mem_cons_of_mem e hx))]

theorem firstPassGo_positions_filter (guess : Word) (results : List Fb)
    (l : List (Char × Fb)) (i : Nat) (a : GuessAnalysis)
    (hkeys : ∀ e ∈ a.positions, e.1 < i) (ch : Char) :
    ((firstPassGo guess results i l a).positions.filter (fun e => e.2 = ch)).length
      = (a.positions.filter (fun e => e.2 = ch)).length
        + l.countP (fun e => e.1 = ch ∧ e.2 = Fb.correct) := by
  induction l generalizing i a with
  | nil => simp [firstPassGo]
  | cons e rest ih =>
    obtain ⟨g, fb⟩ := e
    simp only [firstPassGo, List.countP_cons]
    cases fb with
    | correct =>
      have hpos : (fpStep guess results a i g Fb.correct).positions
          = a.positions ++ [(i, g)] := by
        have : (fpStep guess results a i g Fb.correct).positions
            = mapSet a.positions i g := rfl
        rw [this, mapSet_append _ _ _ (fun e he => Nat.ne_of_lt (hkeys e he))]
      have hkeys' : ∀ e ∈ (fpStep guess results a i g Fb.correct).positions,
          e.1 < i + 1 := by
        rw [hpos]
        intro e he
        rcases List.mem_append.mp he with h1 | h2
        · exact Nat.lt_succ_of_lt (hkeys e h1)
        · simp only [List.mem_singleton] at h2
          rw [h2]
          exact Nat.lt_succ_self i
      rw [ih (i + 1) _ hkeys', hpos, List.filter_append, List.length_append]
      by_cases hgc : g = ch
      · simp [hgc]
        omega
      · simp [hgc]
    | present =>
      rw [ih (i + 1) _ (by rw [fpStep_present_positions]; exact fun e he => Nat.lt_succ_of_lt (hkeys e he)),
        fpStep_present_positions]
      simp
    | absent =>
      rw [ih (i + 1) _ (by rw [fpStep_absent_positions]; exact fun e he => Nat.lt_succ_of_lt (hkeys e he)),
        fpStep_absent_positions]
      simp

/-- The JS read `minCounts[x] || 0`. -/
def mval (m : List (Char × Nat)) (x : Char) : Nat := (mapGet m x).getD 0

theorem greensFold_mval (pl : List (Nat × Char))
    (st : List (Option Char) × List (Char × Nat) × List Char) (x : Char) :
    mval (pl.foldl greensStep st).2.1 x
      = mval st.2.1 x + (pl.filter (fun e => e.2 = x)).length := by
  induction pl generalizing st with
  | nil => simp
  | cons e rest ih =>
    rw [List.foldl_cons, ih]
    by_cases hx : e.2 = x
    · have h1 : mval (greensStep st e).2.1 x = mval st.2.1 x + 1 := by
        simp only [greensStep, mval, ← hx, mapGet_mapSet_self, Option.getD_some]
      rw [h1]
      simp [hx]
      omega
    · have h1 : mval (greensStep st e).2.1 x = mval st.2.1 x := by
        simp only [greensStep, mval, mapGet_mapSet_ne _ _ _ _ hx]
      rw [h1]
      simp [hx]

theorem presentFold_mval_not_mem (a : GuessAnalysis) (greens : List (Option Char))
    (pl : List Char) (st : List (Char × Nat) × List (Char × List Nat) × List Char)
    (x : Char) (hx : x ∉ pl) :
    mval (pl.foldl (presentStep a greens) st).1 x = mval st.1 x := by
  induction pl generalizing st with
  | nil => rfl
  | cons ch rest ih =>
    have hne : ¬ ch = x := fun h => hx (h ▸ List.mem_cons_self ch rest)
    rw [List.foldl_cons, ih _ (fun h => hx (List.mem_cons_of_mem ch h))]
    simp only [presentStep, mval, mapGet_mapSet_ne _ _ _ _ hne]

theorem presentFold_mval (a : GuessAnalysis) (greens : List (Option Char))
    (pl : List Char) (hnd : pl.Nodup)
    (st : List (Char × Nat) × List (Char × List Nat) × List Char) (x : Char) :
    mval (pl.foldl (presentStep a greens) st).1 x
      = if x ∈ pl then
          max (mval st.1 x + 1) ((a.positions.filter (fun e => e.2 = x)).length)
        else mval st.1 x := by
  induction pl generalizing st with
  | nil => simp
  | cons ch rest ih =>
    have hnd' : rest.Nodup := (List.nodup_cons.mp hnd).2
    have hch : ch ∉ rest := (List.nodup_cons.mp hnd).1
    rw [List.foldl_cons]
    by_cases hx : x = ch
    · rw [← hx] at hch ⊢
      rw [presentFold_mval_not_mem a greens rest _ x hch]
      have h1 : mval (presentStep a greens st x).1 x
          = max (mval st.1 x + 1) ((a.positions.filter (fun e => e.2 = x)).length) := by
        simp only [presentStep, mval, mapGet_mapSet_self, Option.getD_some]
      rw [h1, if_pos (List.mem_cons_self x rest)]
    · rw [ih hnd']
      have hne : ¬ ch = x := fun h => hx h.symm
      have h1 : mval (presentStep a greens st ch).1 x = mval st.1 x := by
        simp only [presentStep, mval, mapGet_mapSet_ne _ _ _ _ hne]
      rw [h1]
      simp [List.mem_cons, hx]

theorem absentFold_max_not_mem (mc : List (Char × Nat)) (al : List Char)
    (st : List (Char × Nat) × List Char × List Char) (x : Char) (hx : x ∉ al) :
    mapGet (al.foldl (absentStep mc) st).1 x = mapGet st.1 x := by
  induction al generalizing st with
  | nil => rfl
  | cons ch rest ih =>
    have hne : ¬ ch = x := fun h => hx (h ▸ List.mem_cons_self ch rest)
    rw [List.foldl_cons, ih _ (fun h => hx (List.mem_cons_of_mem ch h))]
    simp only [absentStep]
    split
    · rfl
    · simp only [mapGet_mapSet_ne _ _ _ _ hne]

theorem absentFold_max (mc : List (Char × Nat)) (al : List Char) (hnd : al.Nodup)
    (st : List (Char × Nat) × List Char × List Char) (x : Char) :
    mapGet (al.foldl (absentStep mc) st).1 x
      = if x ∈ al ∧ 0 < mval mc x then some (mval mc x) else mapGet st.1 x := by
  induction al generalizing st with
  | nil => simp
  | cons ch rest ih =>
    have hnd' : rest.Nodup := (List.nodup_cons.mp hnd).2
    have hch : ch ∉ rest := (List.nodup_cons.mp hnd).1
    rw [List.foldl_cons]
    by_cases hx : x = ch
    · rw [← hx] at hch ⊢
      rw [absentFold_max_not_mem mc rest _ x hch]
      by_cases hz : (mapGet mc x).getD 0 = 0
      · have h1 : (absentStep mc st x).1 = st.1 := by
          simp only [absentStep, if_pos hz]
        rw [h1, if_neg]
        simp only [mval]
        omega
      · have h1 : (absentStep mc st x).1 = mapSet st.1 x ((mapGet mc x).getD 0) := by
          simp only [absentStep, if_neg hz]
        rw [h1, mapGet_mapSet_self, if_pos]
        · rfl
        · exact ⟨List.mem_cons_self x rest, by simp only [mval]; omega⟩
    · rw [ih hnd']
      have hne : ¬ ch = x := fun h => hx h.symm
      have h1 : mapGet (absentStep mc st ch).1 x = mapGet st.1 x := by
        simp only [absentStep]
        split
        · rfl
        · exact mapGet_mapSet_ne _ _ _ _ hne
      by_cases hm : x ∈ rest ∧ 0 < mval mc x
      · rw [if_pos hm, if_pos ⟨List.mem_cons_of_mem ch hm.1, hm.2⟩]
      · rw [if_neg hm, if_neg (by
          rintro ⟨hmem, hpos⟩
          rcases List.mem_cons.mp hmem with h | h
          · exact hx h
          · exact hm ⟨h, hpos⟩)]
        exact h1

theorem absentFold_forbidden (mc : List (Char × Nat)) (al : List Char)
    (st : List (Char × Nat) × List Char × List Char) (x : Char) :
    x ∈ (al.foldl (absentStep mc) st).2.1
      ↔ x ∈ st.2.1 ∨ (x ∈ al ∧ mval mc x = 0) := by
  induction al generalizing st with
  | nil => simp
  | cons ch rest ih =>
    rw [List.foldl_cons, ih]
    by_cases hz : (mapGet mc ch).getD 0 = 0
    · have h1 : (absentStep mc st ch).2.1 = setAdd st.2.1 ch := by
        simp only [absentStep, if_pos hz]
      rw [h1]
      simp only [mem_setAdd, List.mem_cons, mval] at *
      constructor
      · rintro ((h | h) | ⟨h1, h2⟩)
        · exact Or.inl h
        · exact Or.inr ⟨Or.inl h, h ▸ hz⟩
        · exact Or.inr ⟨Or.inr h1, h2⟩
      · rintro (h | ⟨(h1 | h1), h2⟩)
        · exact Or.inl (Or.inl h)
        · exact Or.inl (Or.inr h1)
        · exact Or.inr ⟨h1, h2⟩
    · have h1 : (absentStep mc st ch).2.1 = st.2.1 := by
        simp only [absentStep, if_neg hz]
      rw [h1]
      simp only [List.mem_cons, mval] at *
      constructor
      · rintro (h | ⟨h1, h2⟩)
        · exact Or.inl h
        · exact Or.inr ⟨Or.inr h1, h2⟩
      · rintro (h | ⟨(h1 | h1), h2⟩)
        · exact Or.inl h
        · exact absurd (h1 ▸ h2) hz
        · exact Or.inr ⟨h1, h2⟩

theorem firstPassGo_present_nodup (guess : Word) (results : List Fb)
    (l : List (Char × Fb)) (i : Nat) (a : GuessAnalysis) (h : a.present.Nodup) :
    (firstPassGo guess results i l a).present.Nodup := by
  induction l generalizing i a with
  | nil => exact h
  | cons e rest ih =>
    obtain ⟨g, fb⟩ := e
    simp only [firstPassGo]
    apply ih
    cases fb with
    | correct => exact h
    | present => rw [fpStep_present_present]; exact setAdd_nodup _ _ h
    | absent => rw [fpStep_absent_present]; exact h

theorem firstPassGo_absent_nodup (guess : Word) (results : List Fb)
    (l : List (Char × Fb)) (i : Nat) (a : GuessAnalysis) (h : a.absent.Nodup) :
    (firstPassGo guess results i l a).absent.Nodup := by
  induction l generalizing i a with
  | nil => exact h
  | cons e rest ih =>
    obtain ⟨g, fb⟩ := e
    simp only [firstPassGo]
    apply ih
    cases fb with
    | correct => exact h
    | present => rw [fpStep_present_absent]; exact h
    | absent =>
      by_cases hcond : g ∉ a.correct ∧ g ∉ a.present
      · have h1 : (fpStep guess results a i g Fb.absent).absent
            = setAdd a.absent g := by simp only [fpStep, if_pos hcond]
        rw [h1]
        exact setAdd_nodup _ _ h
      · have h1 : (fpStep guess results a i g Fb.absent).absent = a.absent := by
          simp only [fpStep, if_neg hcond]
        rw [h1]
        exact h

/-- **C3 counterexample** — the specification's own duplicate example: guess
`"SPEED"` against secret `"ABIDE"`.  The guess's letter `E` gets `present` at
position 2 and `absent` at position 3, yet the constraint model records *no*
maximum count for `E` (the claim demands `maxCounts['E'] = 1`): by the time
the first pass of `analyzeResults` reaches the absent `E`, the letter is
already in the `present` set, so it is never added to `analysis.absent`, and
`normalizeConstraints` derives `maxCounts` only from `analysis.absent`. -/
theorem speed_abide_no_maxCount :
    computePattern "SPEED".toList "ABIDE".toList
        = [Fb.absent, Fb.absent, Fb.present, Fb.absent, Fb.present]
    ∧ charFbCount "SPEED".toList
        (computePattern "SPEED".toList "ABIDE".toList) 'E' Fb.present = 1
    ∧ charFbCount "SPEED".toList
        (computePattern "SPEED".toList "ABIDE".toList) 'E' Fb.absent = 1
    ∧ mapGet (buildConstraints (analyzeResults "SPEED".toList
        (computePattern "SPEED".toList "ABIDE".toList))).maxCounts 'E' = none := by
  decide

/-- **C3 (amended)** Duplicate-letter disambiguation: a letter with both an
`absent` result and a `correct`/`present` result in the same guess is never
added to `forbiddenLetters`; a `maxCounts` entry is created for it **iff its
first occurrence in the guess carries the `absent` result**, and the recorded
bound is then the letter's number of `correct` occurrences plus one if it has
any `present` occurrence (not, in general, the total number of
correct/present occurrences). -/
theorem analyzeResults_duplicate_maxCount (guess : Word) (results : List Fb)
    (ch : Char)
    (hCP : 0 < charFbCount guess results ch Fb.correct
      + charFbCount guess results ch Fb.present)
    (hA : 0 < charFbCount guess results ch Fb.absent) :
    ch ∉ (buildConstraints (analyzeResults guess results)).forbidden
    ∧ mapGet (buildConstraints (analyzeResults guess results)).maxCounts ch
      = (if absentFirst ch (guess.zip results) then
          some (charFbCount guess results ch Fb.correct
            + (if 0 < charFbCount guess results ch Fb.present then 1 else 0))
        else none) := by
  set A := analyzeResults guess results with hA_def
  set cntC := charFbCount guess results ch Fb.correct with hcntC
  set cntP := charFbCount guess results ch Fb.present with hcntP
  have hApos : A.positions
      = (firstPassGo guess results 0 (guess.zip results) emptyAnalysis).positions := rfl
  have hApre : A.present
      = (firstPassGo guess results 0 (guess.zip results) emptyAnalysis).present := rfl
  have hAabs : A.absent
      = (firstPassGo guess results 0 (guess.zip results) emptyAnalysis).absent := rfl
  have posLen : (A.positions.filter (fun e => e.2 = ch)).length = cntC := by
    rw [hApos, firstPassGo_positions_filter guess results (guess.zip results) 0
      emptyAnalysis (by simp [emptyAnalysis]) ch]
    simp only [emptyAnalysis, List.filter_nil, List.length_nil, Nat.zero_add]
    rw [hcntC, charFbCount, ← List.countP_eq_length_filter]
  have hndP : A.present.Nodup := by
    rw [hApre]
    exact firstPassGo_present_nodup guess results _ 0 emptyAnalysis (by simp [emptyAnalysis])
  have hndA : A.absent.Nodup := by
    rw [hAabs]
    exact firstPassGo_absent_nodup guess results _ 0 emptyAnalysis (by simp [emptyAnalysis])
  have hpmem : ch ∈ A.present ↔ 0 < cntP := by
    rw [hApre, firstPassGo_present_mem]
    rw [hcntP, charFbCount, ← List.countP_eq_length_filter]
    rw [List.countP_pos_iff]
    simp [emptyAnalysis]
  have habsmem : ch ∈ A.absent ↔ absentFirst ch (guess.zip results) = true := by
    rw [hAabs, firstPassGo_absent_mem]
    simp [emptyAnalysis]
  set st0 := A.positions.foldl greensStep
    (List.replicate wordLength none, [], []) with hst0
  set st1 := A.present.foldl (presentStep A st0.1) (st0.2.1, [], st0.2.2) with hst1
  set st2 := A.absent.foldl (absentStep st1.1) ([], [], st1.2.2) with hst2
  have hmax : (buildConstraints A).maxCounts = st2.1 := rfl
  have hforb : (buildConstraints A).forbidden = st2.2.1 := rfl
  have hg : mval st0.2.1 ch = cntC := by
    rw [hst0, greensFold_mval]
    rw [posLen]
    simp [mval, mapGet]
  have hmin : mval st1.1 ch = cntC + (if 0 < cntP then 1 else 0) := by
    rw [hst1, presentFold_mval A st0.1 A.present hndP _ ch]
    by_cases hp : ch ∈ A.present
    · rw [if_pos hp, hg, posLen]
      rw [if_pos (hpmem.mp hp)]
      omega
    · rw [if_neg hp, hg, if_neg (fun hpos => hp (hpmem.mpr hpos))]
      omega
  have hminpos : 0 < mval st1.1 ch := by
    rw [hmin]
    by_cases hp : 0 < cntP
    · rw [if_pos hp]; omega
    · rw [if_neg hp]; omega
  constructor
  · rw [hforb, hst2]
    rw [absentFold_forbidden]
    rintro (hmem | ⟨_, hzero⟩)
    · simp at hmem
    · omega
  · rw [hmax, hst2]
    rw [absentFold_max st1.1 A.absent hndA _ ch]
    by_cases haf : absentFirst ch (guess.zip results) = true
    · rw [if_pos ⟨habsmem.mpr haf, hminpos⟩, if_pos haf, hmin]
    · rw [if_neg (fun hcond => haf (habsmem.mp hcond.1)), if_neg haf]
      rfl

/-- Witness for the amended C3: guess `"EAGLE"` against secret `"ALONE"`.
The first `E` (position 0) is `absent` and `E` is green at position 4, so the
model records `maxCounts['E'] = 1` and does not forbid `E`. -/
theorem analyzeResults_duplicate_maxCount_witness :
    (0 < charFbCount "EAGLE".toList
        (computePattern "EAGLE".toList "ALONE".toList) 'E' Fb.correct
      + charFbCount "EAGLE".toList
        (computePattern "EAGLE".toList "ALONE".toList) 'E' Fb.present)
    ∧ (0 < charFbCount "EAGLE".toList
        (computePattern "EAGLE".toList "ALONE".toList) 'E' Fb.absent)
    ∧ ('E' ∉ (buildConstraints (analyzeResults "EAGLE".toList
          (computePattern "EAGLE".toList "ALONE".toList))).forbidden
      ∧ mapGet (buildConstraints (analyzeResults "EAGLE".toList
          (computePattern "EAGLE".toList "ALONE".toList))).maxCounts 'E'
        = (if absentFirst 'E' ("EAGLE".toList.zip
              (computePattern "EAGLE".toList "ALONE".toList)) then
            some (charFbCount "EAGLE".toList
                (computePattern "EAGLE".toList "ALONE".toList) 'E' Fb.correct
              + (if 0 < charFbCount "EAGLE".toList
                    (computePattern "EAGLE".toList "ALONE".toList) 'E' Fb.present
                 then 1 else 0))
          else none)) :=
  ⟨by decide, by decide,
    analyzeResults_duplicate_maxCount "EAGLE".toList
      (computePattern "EAGLE".toList "ALONE".toList) 'E' (by decide) (by decide)⟩

/-! ### Claim C1 — filter soundness fails on the code (bug)

For the secret `"CRANE"` and the guess `"STARE"`, the feedback the secret
itself produces (`S`⬜ `T`⬜ `A`🟩 `R`🟨 `E`🟩) yields a constraint model with
`minCounts['R'] = 1` but `bannedPos['R'] = {0,1,2,3,4}`: the `bannedPos` loop
of `normalizeConstraints` bans a yellow letter from **every** position that
is not a green of that letter, contradicting the adjacent code comment
("Find positions where this yellow letter appeared and was incorrect").  Any
word containing `R` anywhere is rejected by the banned-position check, and any
word without `R` fails the minimum count, so the filter excludes the secret
itself (indeed it empties every pool whenever a yellow is present). -/

/-- **C1** The secret `"CRANE"` is excluded by the candidate filter run on a
pool containing it, under the constraint model built from the feedback that
`"CRANE"` itself produces for the guess `"STARE"` — filter soundness is
violated. -/
theorem filter_excludes_secret_crane :
    computePattern "STARE".toList "CRANE".toList
        = [Fb.absent, Fb.absent, Fb.correct, Fb.present, Fb.correct]
    ∧ mval (buildConstraints (analyzeResults "STARE".toList
        (computePattern "STARE".toList "CRANE".toList))).minCounts 'R' = 1
    ∧ mapGet (buildConstraints (analyzeResults "STARE".toList
        (computePattern "STARE".toList "CRANE".toList))).bannedPos 'R'
        = some [0, 1, 2, 3, 4]
    ∧ filterWordsCore (buildConstraints (analyzeResults "STARE".toList
        (computePattern "STARE".toList "CRANE".toList)))
        ["CRANE".toList, "BRACE".toList] = [] := by
  decide

/-! ### Claim C6 — constraint conflict detection -/

theorem mapGet_of_mem_nodup {α β : Type} [DecidableEq α] (m : List (α × β))
    (e : α × β) (hmem : e ∈ m) (hnd : (m.map Prod.fst).Nodup) :
    mapGet m e.1 = some e.2 := by
  induction m with
  | nil => cases hmem
  | cons f rest ih =>
    have hnd2 : (f.1 :: rest.map Prod.fst).Nodup := by
      rw [List.map_cons] at hnd; exact hnd
    have hnd' := List.nodup_cons.mp hnd2
    rcases List.mem_cons.mp hmem with h | h
    · rw [h, mapGet_cons, if_pos rfl]
    · have hf : ¬ f.1 = e.1 := by
        intro hh
        exact hnd'.1 (hh ▸ List.mem_map_of_mem Prod.fst h)
      rw [mapGet_cons, if_neg hf]
      exact ih h hnd'.2

/-- **C6** Constraint conflict detection (the validation loop of
`normalizeConstraints`): for every constraint record whose `maxCounts` keys
are distinct (as the keys of a JS object always are), validation raises the
`Impossible constraints` error **iff** some letter has both bounds defined
with the minimum exceeding the maximum; when no such letter exists,
normalization does not fail. -/
theorem validateConstraints_conflict_iff (c : NormalizedConstraints)
    (hnd : (c.maxCounts.map Prod.fst).Nodup) :
    (∃ ch mx, mapGet c.maxCounts ch = some mx ∧ mval c.minCounts ch > mx)
      ↔ ∃ msg, validateConstraints c = Except.error msg := by
  constructor
  · rintro ⟨ch, mx, hget, hgt⟩
    obtain ⟨e, hfind, he2⟩ : ∃ e, c.maxCounts.find? (fun e => e.1 = ch) = some e
        ∧ e.2 = mx := by
      simp only [mapGet] at hget
      cases hf : c.maxCounts.find? (fun e => e.1 = ch) with
      | none => rw [hf] at hget; cases hget
      | some e =>
        rw [hf] at hget
        exact ⟨e, rfl, by simpa using hget⟩
    have he1 : e.1 = ch := by
      have := List.find?_some hfind
      simpa using this
    have hmem : e ∈ c.maxCounts := List.mem_of_find?_eq_some hfind
    have hpe : (fun e => decide ((mapGet c.minCounts e.1).getD 0 > e.2)) e = true := by
      simp only [decide_eq_true_eq, he1, he2]
      exact hgt
    have hsome : (c.maxCounts.find?
        (fun e => (mapGet c.minCounts e.1).getD 0 > e.2)).isSome := by
      rw [List.find?_isSome]
      exact ⟨e, hmem, hpe⟩
    unfold validateConstraints
    cases hf2 : c.maxCounts.find? (fun e => (mapGet c.minCounts e.1).getD 0 > e.2) with
    | none => rw [hf2] at hsome; cases hsome
    | some e' => exact ⟨"Impossible constraints", rfl⟩
  · rintro ⟨msg, herr⟩
    unfold validateConstraints at herr
    cases hf : c.maxCounts.find? (fun e => (mapGet c.minCounts e.1).getD 0 > e.2) with
    | none => rw [hf] at herr; cases herr
    | some e =>
      have hp := List.find?_some hf
      have hmem := List.mem_of_find?_eq_some hf
      refine ⟨e.1, e.2, mapGet_of_mem_nodup _ _ hmem hnd, ?_⟩
      simpa [mval] using hp

/-- Witness for C6, both directions inhabited: a conflicting record
(`min['A'] = 2 > max['A'] = 0`) is rejected. -/
theorem validateConstraints_conflict_iff_witness :
    (((WordleBot.NormalizedConstraints.mk [] [('A', 2)] [('A', 0)] [] [] []).maxCounts.map
        Prod.fst).Nodup)
    ∧ ((∃ ch mx,
          mapGet (NormalizedConstraints.mk [] [('A', 2)] [('A', 0)] [] [] []).maxCounts ch
              = some mx
            ∧ mval (NormalizedConstraints.mk [] [('A', 2)] [('A', 0)] [] [] []).minCounts ch
              > mx)
        ↔ ∃ msg, validateConstraints
            (NormalizedConstraints.mk [] [('A', 2)] [('A', 0)] [] [] [])
              = Except.error msg) :=
  ⟨by decide,
    validateConstraints_conflict_iff
      (NormalizedConstraints.mk [] [('A', 2)] [('A', 0)] [] [] []) (by decide)⟩

/-! ## LRU cache — `src/utils/lru-cache.ts`

A JS `Map` iterates in insertion order; `keys().next().value` is the oldest
key, and `delete`+`set` re-inserts at the newest position.  The cache is a
list of `(key, value, expiry)` with the oldest entry first.  `Date.now()` is
an explicit `now : ℕ` parameter. -/

structure LRUCache (K V : Type) where
  entries : List (K × V × Nat)
  maxSize : Nat
  ttl : Nat

namespace LRUCache

/-- `new LRUCache(maxSize, ttlMs)`. -/
def empty {K V : Type} (maxSize ttl : Nat) : LRUCache K V :=
  { entries := [], maxSize := maxSize, ttl := ttl }

/-- `cache.size()`. -/
def size {K V : Type} (c : LRUCache K V) : Nat := c.entries.length

/-- `Map.delete(key)` on the underlying map. -/
def delete {K V : Type} [DecidableEq K] (c : LRUCache K V) (k : K) : LRUCache K V :=
  { c with entries := c.entries.filter (fun e => !(e.1 = k : Bool)) }

/-- `LRUCache.get` at time `now`: `undefined` on a miss; an expired entry is
deleted; a live entry is moved to the most-recent position and returned. -/
def get {K V : Type} [DecidableEq K] (c : LRUCache K V) (now : Nat) (k : K) :
    Option V × LRUCache K V :=
  match c.entries.find? (fun e => e.1 = k) with
  | none => (none, c)
  | some (_, v, exp) =>
      if now > exp then (none, c.delete k)
      else (some v, { c with entries :=
        (c.entries.filter (fun e => !(e.1 = k : Bool))) ++ [(k, v, exp)] })

/-- `LRUCache.set` at time `now`: delete an existing key, else evict the
oldest entry when at capacity, then append with a fresh expiry. -/
def set {K V : Type} [DecidableEq K] (c : LRUCache K V) (now : Nat) (k : K)
    (v : V) : LRUCache K V :=
  let c1 :=
    if (c.entries.find? (fun e => e.1 = k)).isSome then
      c.delete k
    else if c.entries.length ≥ c.maxSize then
      match c.entries.head? with
      | some e => c.delete e.1
      | none => c
    else c
  { c1 with entries := c1.entries ++ [(k, v, now + c.ttl)] }

/-- `LRUCache.cleanExpired` at time `now`. -/
def cleanExpired {K V : Type} (c : LRUCache K V) (now : Nat) : LRUCache K V :=
  { c with entries := c.entries.filter (fun e => !(now > e.2.2 : Bool)) }

end LRUCache

/-! ### Claim C10 — the LRU cache respects its size bound -/

/-- A `set` via an existing key never grows the entry list: the filter drops
at least the found entry. -/
theorem filter_length_lt_of_find?_some {K V : Type} [DecidableEq K]
    (l : List (K × V × Nat)) (k : K) (h : (l.find? (fun e => e.1 = k)).isSome) :
    (l.filter (fun e => !(e.1 = k : Bool))).length < l.length := by
  induction l with
  | nil => simp [List.find?] at h
  | cons e rest ih =>
    by_cases hek : e.1 = k
    · have : (rest.filter (fun e => !(e.1 = k : Bool))).length ≤ rest.length :=
        List.length_filter_le _ rest
      simp only [List.filter_cons, hek]
      simp [hek]
      omega
    · have h' : (rest.find? (fun e => e.1 = k)).isSome := by
        simp only [List.find?] at h
        simpa [hek] using h
      have := ih h'
      simp only [List.filter_cons]
      simp [hek]
      omega

/-- **C10 counterexample** — with `maxSize = 0` the claimed invariant is not
preserved: the empty cache satisfies `size ≤ 0`, the eviction branch finds no
oldest entry to delete, and the insert grows the cache to size 1. -/
theorem lru_set_breaks_bound_at_zero :
    (LRUCache.empty (K := String) (V := Bool) 0 10).size
        ≤ (LRUCache.empty (K := String) (V := Bool) 0 10).maxSize
    ∧ ¬ (((LRUCache.empty (K := String) (V := Bool) 0 10).set 5 "a" true).size
        ≤ ((LRUCache.empty (K := String) (V := Bool) 0 10).set 5 "a" true).maxSize) := by
  constructor
  · decide
  · intro h
    revert h
    decide

/-- **C10 (amended)** For every positive capacity, `LRUCache.set` preserves
the invariant `size ≤ maxSize`: overwriting an existing key does not grow the
cache, and inserting a new key at capacity first evicts the oldest entry. -/
theorem lru_set_preserves_bound {K V : Type} [DecidableEq K]
    (c : LRUCache K V) (now : Nat) (k : K) (v : V)
    (hpos : 0 < c.maxSize) (hinv : c.size ≤ c.maxSize) :
    (c.set now k v).size ≤ (c.set now k v).maxSize := by
  simp only [LRUCache.size] at hinv
  unfold LRUCache.set
  by_cases hfound : (c.entries.find? (fun e => e.1 = k)).isSome
  · simp only [if_pos hfound]
    have hlt := filter_length_lt_of_find?_some c.entries k hfound
    simp only [LRUCache.size, LRUCache.delete, List.length_append,
      List.length_cons, List.length_nil]
    omega
  · simp only [if_neg hfound]
    by_cases hcap : c.entries.length ≥ c.maxSize
    · simp only [if_pos hcap]
      have hne : c.entries ≠ [] := by
        intro hnil
        rw [hnil] at hcap
        simp at hcap
        omega
      cases hh : c.entries.head? with
      | none => exact absurd (List.head?_eq_none_iff.mp hh) hne
      | some e =>
        have hmem : e ∈ c.entries := List.mem_of_mem_head? hh
        have hlt : (c.entries.filter (fun x => !(x.1 = e.1 : Bool))).length
            < c.entries.length := by
          have hfind : (c.entries.find? (fun x => x.1 = e.1)).isSome := by
            rw [List.find?_isSome]
            exact ⟨e, hmem, by simp⟩
          exact filter_length_lt_of_find?_some c.entries e.1 hfind
        simp only [LRUCache.size, LRUCache.delete, List.length_append,
          List.length_cons, List.length_nil]
        omega
    · simp only [if_neg hcap]
      simp only [LRUCache.size, List.length_append, List.length_cons,
        List.length_nil]
      omega

/-- Witness for the amended C10: a full two-entry cache accepts a new key by
evicting the oldest entry. -/
theorem lru_set_preserves_bound_witness :
    (0 < (LRUCache.mk (K := String) (V := Bool)
        [("a", true, 90), ("b", false, 90)] 2 10).maxSize)
    ∧ ((LRUCache.mk (K := String) (V := Bool)
        [("a", true, 90), ("b", false, 90)] 2 10).size
      ≤ (LRUCache.mk (K := String) (V := Bool)
        [("a", true, 90), ("b", false, 90)] 2 10).maxSize)
    ∧ (((LRUCache.mk (K := String) (V := Bool)
          [("a", true, 90), ("b", false, 90)] 2 10).set 5 "c" true).size
      ≤ ((LRUCache.mk (K := String) (V := Bool)
          [("a", true, 90), ("b", false, 90)] 2 10).set 5 "c" true).maxSize) :=
  ⟨by decide, by decide,
    lru_set_preserves_bound
      (LRUCache.mk [("a", true, 90), ("b", false, 90)] 2 10) 5 "c" true
      (by decide) (by decide)⟩

/-! ## Dictionary service — `FreeDictionaryService.validateWords`

The network outcome for one word is abstracted into an oracle
`api : Word → Bool`: `true` for a 200 response on whichever endpoint
(primary, or fallback after a 429) finally answered, and also for every
error path the code recovers from by treating the word as valid (timeouts,
network errors, and the whole-batch `catch`, which pushes all uncached words
as valid and caches `true`).  `word.toLowerCase()` is `lowerW`; cache reads
and writes thread the LRU cache state, including the move-to-front and
expiry behaviour of `get`. -/

/-- `word.toLowerCase()`. -/
def lowerW (w : Word) : Word := w.map Char.toLower

/-- One step of the cache-scanning `batch.filter(…)` callback: state is
(validWords so far, cache, uncached words so far). -/
def cachedScanStep (now : Nat)
    (st : List Word × LRUCache Word Bool × List Word) (w : Word) :
    List Word × LRUCache Word Bool × List Word :=
  let r := st.2.1.get now (lowerW w)
  match r.1 with
  | some true => (st.1 ++ [w], r.2, st.2.2)
  | some false => (st.1, r.2, st.2.2)
  | none => (st.1, r.2, st.2.2 ++ [w])

/-- One step of the post-API `uncachedWords.forEach(…)`: look up the oracle
verdict, cache it, and keep the word if valid (the `Promise.all` produces the
same verdicts in the same order as this word-by-word scan). -/
def apiScanStep (api : Word → Bool) (now : Nat)
    (st : List Word × LRUCache Word Bool) (w : Word) :
    List Word × LRUCache Word Bool :=
  let isValid := api (lowerW w)
  ((if isValid then st.1 ++ [w] else st.1), st.2.set now (lowerW w) isValid)

/-- Processing of one batch inside `validateWords`. -/
def validateBatch (api : Word → Bool) (now : Nat)
    (st : List Word × LRUCache Word Bool) (batch : List Word) :
    List Word × LRUCache Word Bool :=
  let scan := batch.foldl (cachedScanStep now) (st.1, st.2, [])
  let uncached := scan.2.2
  if uncached.isEmpty then (scan.1, scan.2.1)
  else uncached.foldl (apiScanStep api now) (scan.1, scan.2.1)

/-- The `for (let i = 0; i < words.length; i += this.batchSize)` loop.  For
`batchSize ≥ 1` each round processes `words.slice(i, i + batchSize)` exactly
as the source does (a `batchSize` of `0` would loop forever in the source;
the model always advances by at least one word).  The `fuel` argument is a
structural-recursion device only: each round consumes at least one word, so
a fuel of `words.length` is never exhausted. -/
def validateWordsGo (api : Word → Bool) (now batchSize : Nat) :
    Nat → List Word → List Word × LRUCache Word Bool →
    List Word × LRUCache Word Bool
  | _, [], st => st
  | 0, _ :: _, st => st
  | fuel + 1, w :: rest, st =>
    let batch := w :: rest.take (batchSize - 1)
    validateWordsGo api now batchSize fuel (rest.drop (batchSize - 1))
      (validateBatch api now st batch)

/-- `FreeDictionaryService.validateWords` (returning the valid words and the
final cache state). -/
def validateWords (api : Word → Bool) (now : Nat) (c : LRUCache Word Bool)
    (words : List Word) (batchSize : Nat) : List Word × LRUCache Word Bool :=
  validateWordsGo api now batchSize words.length words ([], c.cleanExpired now)

/-- The pattern array `filterWords` hands to the synthesizer when nothing
survives: `new Array(this.wordLength).fill("")` with `analysis.positions`
written in (`none` models the empty-string slot). -/
def positionsPattern (a : GuessAnalysis) : List (Option Char) :=
  a.positions.foldl (fun p e => p.set e.1 (some e.2)) (List.replicate wordLength none)

/-- `EnhancedAIWordleBot.filterWords`: the in-memory filter, then dictionary
validation, then — only when nothing survives — the word synthesizer
(`generateAndValidateWords`, abstracted as the oracle `synth` since its
output is dictionary-dependent).  `normalizeConstraints` never throws
(`validateConstraints_conflict_iff` plus the fact that `maxCounts` entries
are copied from `minCounts`), so the model uses the built record directly. -/
def filterWords (api : Word → Bool) (now : Nat) (c : LRUCache Word Bool)
    (synth : List (Option Char) → GuessAnalysis → List Word)
    (a : GuessAnalysis) (pool : List Word) (batchSize : Nat) : List Word :=
  let constraints := buildConstraints a
  let filtered := pool.filter (wordPasses constraints)
  let v := validateWords api now c filtered batchSize
  if v.1.isEmpty then synth (positionsPattern a) a
  else v.1

/-! ### Claim C8 — filtering as a pure order-preserving predicate -/

theorem cachedScan_mem (now : Nat) (batch : List Word)
    (st : List Word × LRUCache Word Bool × List Word) (x : Word) :
    (x ∈ (batch.foldl (cachedScanStep now) st).1 → x ∈ st.1 ∨ x ∈ batch)
    ∧ (x ∈ (batch.foldl (cachedScanStep now) st).2.2 → x ∈ st.2.2 ∨ x ∈ batch) := by
  induction batch generalizing st with
  | nil => exact ⟨fun h => Or.inl h, fun h => Or.inl h⟩
  | cons w rest ih =>
    rw [List.foldl_cons]
    obtain ⟨ih1, ih2⟩ := ih (cachedScanStep now st w)
    constructor
    · intro hx
      rcases ih1 hx with h | h
      · simp only [cachedScanStep] at h
        rcases hr : (st.2.1.get now (lowerW w)).1 with _ | b
        · rw [hr] at h
          exact Or.inl h
        · rw [hr] at h
          cases b with
          | true =>
            simp only at h
            rcases List.mem_append.mp h with h' | h'
            · exact Or.inl h'
            · simp only [List.mem_singleton] at h'
              exact Or.inr (h' ▸ List.mem_cons_self w rest)
          | false => exact Or.inl h
      · exact Or.inr (List.mem_cons_of_mem w h)
    · intro hx
      rcases ih2 hx with h | h
      · simp only [cachedScanStep] at h
        rcases hr : (st.2.1.get now (lowerW w)).1 with _ | b
        · rw [hr] at h
          simp only at h
          rcases List.mem_append.mp h with h' | h'
          · exact Or.inl h'
          · simp only [List.mem_singleton] at h'
            exact Or.inr (h' ▸ List.mem_cons_self w rest)
        · rw [hr] at h
          cases b <;> exact Or.inl h
      · exact Or.inr (List.mem_cons_of_mem w h)

theorem apiScan_mem (api : Word → Bool) (now : Nat) (l : List Word)
    (st : List Word × LRUCache Word Bool) (x : Word) :
    x ∈ (l.foldl (apiScanStep api now) st).1 → x ∈ st.1 ∨ x ∈ l := by
  induction l generalizing st with
  | nil => exact fun h => Or.inl h
  | cons w rest ih =>
    rw [List.foldl_cons]
    intro hx
    rcases ih (apiScanStep api now st w) hx with h | h
    · simp only [apiScanStep] at h
      by_cases hv : api (lowerW w) = true
      · rw [if_pos hv] at h
        rcases List.mem_append.mp h with h' | h'
        · exact Or.inl h'
        · simp only [List.mem_singleton] at h'
          exact Or.inr (h' ▸ List.mem_cons_self w rest)
      · rw [if_neg hv] at h
        exact Or.inl h
    · exact Or.inr (List.mem_cons_of_mem w h)

theorem validateBatch_mem (api : Word → Bool) (now : Nat)
    (st : List Word × LRUCache Word Bool) (batch : List Word) (x : Word) :
    x ∈ (validateBatch api now st batch).1 → x ∈ st.1 ∨ x ∈ batch := by
  intro hx
  unfold validateBatch at hx
  obtain ⟨hc1, hc2⟩ := cachedScan_mem now batch (st.1, st.2, []) x
  by_cases hemp : (batch.foldl (cachedScanStep now) (st.1, st.2, [])).2.2.isEmpty
  · rw [if_pos hemp] at hx
    exact hc1 hx
  · rw [if_neg hemp] at hx
    rcases apiScan_mem api now _ _ x hx with h | h
    · exact hc1 h
    · rcases hc2 h with h' | h'
      · cases h'
      · exact Or.inr h'

theorem validateWordsGo_mem (api : Word → Bool) (now batchSize : Nat)
    (fuel : Nat) (l : List Word) (st : List Word × LRUCache Word Bool) (x : Word) :
    x ∈ (validateWordsGo api now batchSize fuel l st).1 → x ∈ st.1 ∨ x ∈ l := by
  induction fuel generalizing l st with
  | zero =>
    cases l with
    | nil => exact fun h => Or.inl h
    | cons w rest => exact fun h => Or.inl h
  | succ fuel ih =>
    cases l with
    | nil => exact fun h => Or.inl h
    | cons w rest =>
      intro hx
      rw [validateWordsGo] at hx
      rcases ih _ _ hx with h | h
      · rcases validateBatch_mem api now st (w :: rest.take (batchSize - 1)) x h
          with h1 | h1
        · exact Or.inl h1
        · rcases List.mem_cons.mp h1 with h2 | h2
          · exact Or.inr (h2 ▸ List.mem_cons_self w rest)
          · exact Or.inr (List.mem_cons_of_mem w
              ((List.take_sublist _ _).mem h2))
      · exact Or.inr (List.mem_cons_of_mem w ((List.drop_sublist _ _).mem h))

/-- **C8 (amended)** The in-memory filtering stage is a pure, deterministic,
order-preserving predicate — its result is a sublist of the pool — and
dictionary validation returns only words drawn from its input.  (The order
claim does *not* survive dictionary validation: see the counterexample.) -/
theorem filter_sublist_and_validate_subset (c : NormalizedConstraints)
    (pool : List Word) (api : Word → Bool) (now : Nat)
    (cache : LRUCache Word Bool) (words : List Word) (batchSize : Nat) :
    (filterWordsCore c pool).Sublist pool
    ∧ (∀ x ∈ (validateWords api now cache words batchSize).1, x ∈ words) := by
  constructor
  · exact List.filter_sublist pool
  · intro x hx
    rcases validateWordsGo_mem api now batchSize words.length words _ x hx with h | h
    · cases h
    · exact h

/-- **C8 counterexample** — the full `filterWords` pipeline is *not*
order-preserving: with `"BBBBB"` cached as valid and `"AAAAA"` needing an API
round-trip, an unconstrained filter over the pool `["AAAAA", "BBBBB"]`
returns `["BBBBB", "AAAAA"]` (cache hits are pushed during the batch scan,
before the uncached words return), which is not a sublist of the pool. -/
theorem filterWords_not_order_preserving :
    filterWords (fun _ => true) 50
        (LRUCache.mk [("bbbbb".toList, true, 100)] 1000 100)
        (fun _ _ => []) emptyAnalysis
        ["AAAAA".toList, "BBBBB".toList] 2
      = ["BBBBB".toList, "AAAAA".toList]
    ∧ ¬ (filterWords (fun _ => true) 50
        (LRUCache.mk [("bbbbb".toList, true, 100)] 1000 100)
        (fun _ _ => []) emptyAnalysis
        ["AAAAA".toList, "BBBBB".toList] 2).Sublist
          ["AAAAA".toList, "BBBBB".toList] := by
  constructor
  · rfl
  · intro h
    revert h
    rw [show filterWords (fun _ => true) 50
        (LRUCache.mk [("bbbbb".toList, true, 100)] 1000 100)
        (fun _ _ => []) emptyAnalysis
        ["AAAAA".toList, "BBBBB".toList] 2
      = ["BBBBB".toList, "AAAAA".toList] from rfl]
    decide

/-! ## Configuration (`src/config.ts`) and frequency tables -/

/-- `config.strategy.startingWords` (the shipped list repeats its eight
distinct words up to twenty entries). -/
def startingWords : List Word :=
  ["STARE".toList, "CRANE".toList, "SLATE".toList, "TRACE".toList,
   "ADIEU".toList, "AUDIO".toList, "RAISE".toList, "ARISE".toList,
   "STARE".toList, "CRANE".toList, "SLATE".toList, "TRACE".toList,
   "ADIEU".toList, "AUDIO".toList, "RAISE".toList, "ARISE".toList,
   "STARE".toList, "CRANE".toList, "SLATE".toList, "TRACE".toList]

def commonStart : List Char := ['S', 'C', 'T', 'A', 'R']
def commonEnd : List Char := ['E', 'R', 'T', 'Y', 'N']
def vowelsList : List Char := ['A', 'E', 'I', 'O', 'U']

/-- The ten letters boosted by `calculateLetterFrequencies`. -/
def commonLetters : List Char := ['E', 'A', 'R', 'I', 'O', 'T', 'N', 'S', 'L', 'C']

/-- `EnhancedAIWordleBot.calculateLetterFrequencies`: raw counts over the
joined starting words, then `freq[letter] += 10 - index` for each common
letter already present. -/
def letterFrequencies : Char → Nat :=
  let base := countsOf startingWords.flatten
  commonLetters.enum.foldl
    (fun f e => if f e.2 ≠ 0 then updCount f e.2 (f e.2 + (10 - e.1)) else f) base

/-- `EnhancedAIWordleBot.initPositionFrequencies`:
`positionFrequencies.get(i)?.[char] || 0`. -/
def posFreq (i : Nat) (c : Char) : Nat :=
  if i < wordLength then countsOf (startingWords.map (fun w => w.getD i ' ')) c else 0

/-! ## Entropy / minimax metrics — `partitionByPattern`, `entropyOf`,
`worstCaseBucket` -/

/-- `patterns.get(pattern)!.push(secret)` on a `Map`, preserving first-seen
bucket order. -/
def bucketAdd : List (List Fb × List Word) → List Fb → Word →
    List (List Fb × List Word)
  | [], p, s => [(p, [s])]
  | (q, b) :: rest, p, s =>
      if q = p then (q, b ++ [s]) :: rest else (q, b) :: bucketAdd rest p s

/-- `EnhancedAIWordleBot.partitionByPattern`. -/
def partitionByPattern (guess : Word) (secrets : List Word) :
    List (List Fb × List Word) :=
  secrets.foldl (fun pats secret => bucketAdd pats (computePattern guess secret) secret) []

/-- `EnhancedAIWordleBot.entropyOf`: Shannon entropy (in bits, `Math.log2`
idealized over `ℝ`) of the bucket-size fractions. -/
noncomputable def entropyOf (guess : Word) (secrets : List Word) : ℝ :=
  let patterns := partitionByPattern guess secrets
  let totalSize : ℝ := (secrets.length : ℝ)
  0 - ((patterns.map (fun e =>
      ((e.2.length : ℝ) / totalSize)
        * Real.logb 2 ((e.2.length : ℝ) / totalSize))).sum)

/-- `EnhancedAIWordleBot.worstCaseBucket`: size of the largest bucket. -/
def worstCaseBucket (guess : Word) (secrets : List Word) : Nat :=
  (partitionByPattern guess secrets).foldl (fun m e => max m e.2.length) 0

/-! ## Candidate Scorer — `EnhancedAIWordleBot.scoreWord` -/

/-- `EnhancedAIWordleBot.scoreWord(word, analysis?, candidates?)`.  All
JavaScript-number arithmetic is modelled over `ℝ` (the values reached are
integers and halves, which binary floats represent exactly, apart from the
ideal `Math.log2` in the entropy contribution). -/
noncomputable def scoreWord (word : Word) (analysis : Option GuessAnalysis)
    (candidates : Option (List Word)) : ℝ :=
  -- Position-specific and frequency scoring with positional bonuses
  let base : ℝ := (word.enum.map (fun e =>
    ((posFreq e.1 e.2 : ℝ) * 2) + (letterFrequencies e.2 : ℝ)
    + (if e.1 = 0 ∧ e.2 ∈ commonStart then (10 : ℝ) else 0)
    + (if e.1 = word.length - 1 ∧ e.2 ∈ commonEnd then (3 : ℝ) else 0)
    + (if e.2 ∈ vowelsList then
        (5 : ℝ) * (if e.1 = 1 ∨ e.1 = 2 then (3 / 2 : ℝ) else 1) else 0))).sum
  -- Handle constraints and duplicate letters
  let constraintScore : ℝ :=
    match analysis with
    | none => 0
    | some a =>
      let constraints := buildConstraints a
      let uniq := word.foldl setAdd []
      let novel : ℝ :=
        8 * ((uniq.filter (fun c => ¬ c ∈ constraints.testedLetters)).length : ℝ)
      let dupScore : ℝ := ((uniq.map (fun c =>
        let count := countsOf word c
        let minRequired := mval constraints.minCounts c
        (if 1 < count then
          (if count ≤ minRequired then (2 : ℝ)
           else -((5 : ℝ) * ((count : ℝ)
              - ((if minRequired = 0 then 1 else minRequired) : ℝ))))
         else 0)
        + (match mapGet constraints.maxCounts c with
           | some mx =>
              if mx < count then -((10 : ℝ) * ((count : ℝ) - (mx : ℝ))) else 0
           | none => 0))).sum)
      novel + dupScore
  -- Information theory scoring when we have candidates
  let candScore : ℝ :=
    match candidates with
    | none => 0
    | some cs =>
      if cs.length = 0 then 0
      else if cs.length ≤ 20 then (if word ∈ cs then (15 : ℝ) else 0)
      else entropyOf word cs * 10
  base + constraintScore + candScore

/-! ## Guess Selector — `EnhancedAIWordleBot.generateNextGuess`

JavaScript's `sort` (stable since ES2019) followed by `[0]` selects the
first element attaining the extremal comparator value; `firstMaxBy` /
`firstMinBy` implement exactly that selection. -/

/-- First element of the list attaining the maximal `f`-value (stable
descending sort, then `[0]`). -/
def firstMaxBy {α β : Type} [LinearOrder β] (f : α → β) : List α → Option α
  | [] => none
  | x :: rest => some (rest.foldl (fun best y => if f best < f y then y else best) x)

/-- First element of the list attaining the minimal `f`-value (stable
ascending sort, then `[0]`). -/
def firstMinBy {α β : Type} [LinearOrder β] (f : α → β) : List α → Option α
  | [] => none
  | x :: rest => some (rest.foldl (fun best y => if f y < f best then y else best) x)

/-- `EnhancedAIWordleBot.getBestStartingWord` (sort descending by score,
take the first; the starting-word list is never empty). -/
noncomputable def getBestStartingWord : Word :=
  (firstMaxBy (fun w => scoreWord w none none) startingWords).getD []

/-- The `matchesAnalysis` helper of the beam-search fallback in
`generateNextGuess`. -/
def matchesAnalysis (analysis : GuessAnalysis) (w : Word) : Bool :=
  -- Must include all present letters
  analysis.present.all (fun p => w.contains p) &&
  -- Must not include absent letters (unless also marked present/correct)
  analysis.absent.all (fun c =>
    decide (c ∈ analysis.present) || decide (c ∈ analysis.correct)
      || !(w.contains c)) &&
  -- Greens (positions map) must match
  analysis.positions.all (fun e => w.getD e.1 ' ' == e.2) &&
  -- Letter count minimums and maximums
  analysis.letterCounts.all (fun e =>
    decide (e.2.1 ≤ countsOf w e.1) &&
    (match e.2.2 with
     | none => true
     | some mx => decide (countsOf w e.1 ≤ mx)))

/-- The entropy-ranking tail section of `generateNextGuess` (reached from
the endgame and minimax branches when they do not return, and directly for
large pools). -/
noncomputable def entropySection (analysis : GuessAnalysis)
    (previousGuesses remainingWords availableWords : List Word) : Word :=
  -- Limit candidates for performance
  let candidateLimit :=
    min (if 50 < remainingWords.length then 200 else 100) availableWords.length
  let topCandidates := availableWords.take candidateLimit
  -- Score candidates using combined entropy and frequency
  let scored := (topCandidates.filter (fun w => ¬ w ∈ previousGuesses)).map
    (fun w =>
      let entropyWeight : ℝ := if 50 < remainingWords.length then 0.8 else 0.6
      (w, entropyOf w remainingWords * entropyWeight
        + scoreWord w (some analysis) (some remainingWords) * (1 - entropyWeight)))
  if scored.length = 0 then getBestStartingWord
  else ((firstMaxBy Prod.snd scored).map Prod.fst).getD []

/-- `EnhancedAIWordleBot.generateNextGuess`.  The dictionary-dependent word
sources are parameters: `remainingWords` is the filtered candidate pool
(the `candidates` argument / `filterWords` result), `beam300` and `beam500`
are the `enumerateCandidates(300)` and `enumerateCandidates(500)` results.
The source's `if (≤ 2) { if (…) return } else if (≤ 20) { …; if (…) return }`
fall-through into the entropy section is flattened into guarded branches
whose `else` is `entropySection` — the same control flow, expression-style. -/
noncomputable def generateNextGuess (analysis : GuessAnalysis)
    (previousGuesses remainingWords beam300 beam500 : List Word) : Word :=
  if remainingWords.length = 0 then
    -- beam search fallback
    let validBeam := beam300.filter
      (fun w => decide (¬ w ∈ previousGuesses) && matchesAnalysis analysis w)
    if 0 < validBeam.length then
      ((firstMaxBy (fun w => scoreWord w (some analysis) (some validBeam))
        validBeam).getD [])
    else
      -- last resort: beam words containing all present letters, avoiding
      -- absent letters not otherwise known present/correct
      let looseFallback := beam300.filter (fun w =>
        decide (¬ w ∈ previousGuesses) &&
        analysis.present.all (fun p => w.contains p) &&
        analysis.absent.all (fun c =>
          decide (c ∈ analysis.present) || decide (c ∈ analysis.correct)
            || !(w.contains c)))
      if 0 < looseFallback.length then
        ((firstMaxBy (fun w => scoreWord w (some analysis) (some looseFallback))
          looseFallback).getD [])
      else getBestStartingWord
  else
    let availableWords := beam500.filter (fun w => ¬ w ∈ previousGuesses)
    -- For very small candidate sets (endgame), just pick from the candidates
    if remainingWords.length ≤ 2
        ∧ 0 < (remainingWords.filter (fun w => ¬ w ∈ previousGuesses)).length then
      (remainingWords.filter (fun w => ¬ w ∈ previousGuesses)).headD []
    else if ¬ remainingWords.length ≤ 2 ∧ remainingWords.length ≤ 20 then
      -- minimax strategy: score candidates by worst-case bucket size
      let minimaxScores := availableWords.foldl
        (fun m w =>
          if ¬ w ∈ previousGuesses then
            mapSet m w (worstCaseBucket w remainingWords)
          else m)
        ([] : List (Word × Nat))
      if 0 < minimaxScores.length then
        let best := (firstMinBy Prod.snd minimaxScores).getD ([], 0)
        let tiedForBest :=
          (minimaxScores.filter (fun e => e.2 = best.2)).map Prod.fst
        if 1 < tiedForBest.length then
          -- break ties with weighted entropy and frequency
          ((firstMaxBy (fun w => entropyOf w remainingWords * 0.7
            + scoreWord w (some analysis) (some remainingWords) * 0.3)
            tiedForBest).getD [])
        else best.1
      else entropySection analysis previousGuesses remainingWords availableWords
    else entropySection analysis previousGuesses remainingWords availableWords

/-! ### Claims C5 and C9 — properties of the guess selector -/

theorem foldl_pick_mem {α : Type} (step : α → α → α)
    (hstep : ∀ b y, step b y = b ∨ step b y = y) (l : List α) :
    ∀ x : α, l.foldl step x ∈ x :: l := by
  induction l with
  | nil => intro x; simp
  | cons y rest ih =>
    intro x
    rw [List.foldl_cons]
    rcases hstep x y with h | h <;> rw [h]
    · rcases List.mem_cons.mp (ih x) with h' | h'
      · rw [h']; exact List.mem_cons_self x (y :: rest)
      · exact List.mem_cons_of_mem x (List.mem_cons_of_mem y h')
    · rcases List.mem_cons.mp (ih y) with h' | h'
      · rw [h']; exact List.mem_cons_of_mem x (List.mem_cons_self y rest)
      · exact List.mem_cons_of_mem x (List.mem_cons_of_mem y h')

theorem firstMaxBy_mem {α β : Type} [LinearOrder β] (f : α → β) (l : List α)
    (x : α) (h : firstMaxBy f l = some x) : x ∈ l := by
  cases l with
  | nil => cases h
  | cons y rest =>
    simp only [firstMaxBy, Option.some.injEq] at h
    rw [← h]
    exact foldl_pick_mem _ (fun b z => by by_cases hc : f b < f z <;> simp [hc]) rest y

theorem firstMinBy_mem {α β : Type} [LinearOrder β] (f : α → β) (l : List α)
    (x : α) (h : firstMinBy f l = some x) : x ∈ l := by
  cases l with
  | nil => cases h
  | cons y rest =>
    simp only [firstMinBy, Option.some.injEq] at h
    rw [← h]
    exact foldl_pick_mem _ (fun b z => by by_cases hc : f z < f b <;> simp [hc]) rest y

theorem firstMaxBy_getD_mem {α β : Type} [LinearOrder β] (f : α → β)
    (l : List α) (d : α) (h : l ≠ []) : (firstMaxBy f l).getD d ∈ l := by
  cases l with
  | nil => exact absurd rfl h
  | cons y rest =>
    cases hfm : firstMaxBy f (y :: rest) with
    | none => cases hfm
    | some x =>
      rw [Option.getD_some]
      exact firstMaxBy_mem f _ x hfm

theorem firstMinBy_getD_mem {α β : Type} [LinearOrder β] (f : α → β)
    (l : List α) (d : α) (h : l ≠ []) : (firstMinBy f l).getD d ∈ l := by
  cases l with
  | nil => exact absurd rfl h
  | cons y rest =>
    cases hfm : firstMinBy f (y :: rest) with
    | none => cases hfm
    | some x =>
      rw [Option.getD_some]
      exact firstMinBy_mem f _ x hfm

theorem headD_mem {α : Type} (l : List α) (d : α) (h : l ≠ []) :
    l.headD d ∈ l := by
  cases l with
  | nil => exact absurd rfl h
  | cons y rest => exact List.mem_cons_self y rest

theorem mem_mapSet {α β : Type} [DecidableEq α] (m : List (α × β)) (k : α)
    (v : β) (e : α × β) (h : e ∈ mapSet m k v) : e ∈ m ∨ e.1 = k := by
  induction m with
  | nil =>
    simp only [mapSet, List.mem_singleton] at h
    exact Or.inr (by rw [h])
  | cons f rest ih =>
    by_cases hf : f.1 = k
    · simp only [mapSet, if_pos hf] at h
      rcases List.mem_cons.mp h with h1 | h1
      · exact Or.inr (by rw [h1])
      · exact Or.inl (List.mem_cons_of_mem f h1)
    · simp only [mapSet, if_neg hf] at h
      rcases List.mem_cons.mp h with h1 | h1
      · exact Or.inl (h1 ▸ List.mem_cons_self f rest)
      · rcases ih h1 with h2 | h2
        · exact Or.inl (List.mem_cons_of_mem f h2)
        · exact Or.inr h2

theorem minimaxFold_mem (prev remaining : List Word) (avail : List Word)
    (m0 : List (Word × Nat)) (e : Word × Nat)
    (h : e ∈ avail.foldl
      (fun m w =>
        if ¬ w ∈ prev then mapSet m w (worstCaseBucket w remaining) else m) m0) :
    e ∈ m0 ∨ e.1 ∉ prev := by
  induction avail generalizing m0 with
  | nil => exact Or.inl h
  | cons w rest ih =>
    rw [List.foldl_cons] at h
    rcases ih _ h with h1 | h1
    · by_cases hw : w ∈ prev
      · rw [if_neg (by simpa using hw)] at h1
        exact Or.inl h1
      · rw [if_pos hw] at h1
        rcases mem_mapSet _ _ _ _ h1 with h2 | h2
        · exact Or.inl h2
        · exact Or.inr (h2 ▸ hw)
    · exact Or.inr h1

/-- **C5** Endgame selection: whenever the filtered candidate pool has at
most two words and at least one of them has not been guessed yet, the
selector returns the first not-yet-guessed candidate, without any entropy or
minimax ranking. -/
theorem generateNextGuess_endgame (a : GuessAnalysis)
    (prev remaining beam300 beam500 : List Word)
    (hsize : remaining.length ≤ 2)
    (hnp : remaining.filter (fun w => ¬ w ∈ prev) ≠ []) :
    generateNextGuess a prev remaining beam300 beam500
      = (remaining.filter (fun w => ¬ w ∈ prev)).headD [] := by
  have hne : ¬ remaining.length = 0 := by
    intro h0
    rw [List.length_eq_zero] at h0
    rw [h0] at hnp
    simp at hnp
  have hpos : 0 < (remaining.filter (fun w => ¬ w ∈ prev)).length :=
    List.length_pos.mpr hnp
  simp only [generateNextGuess]
  rw [if_neg hne, if_pos ⟨hsize, hpos⟩]

/-- Witness for C5: the specification's endgame scenario — greens
`S T A R`, pool `["STARE", "STARK"]`, one previous guess — returns
`"STARE"`, the first unguessed candidate. -/
theorem generateNextGuess_endgame_witness :
    (["STARE".toList, "STARK".toList].length ≤ 2)
    ∧ (["STARE".toList, "STARK".toList].filter
        (fun w => ¬ w ∈ [("CRANE".toList : Word)]) ≠ [])
    ∧ generateNextGuess
        (GuessAnalysis.mk ['S', 'T', 'A', 'R'] [] []
          [(0, 'S'), (1, 'T'), (2, 'A'), (3, 'R')] [])
        [("CRANE".toList : Word)]
        ["STARE".toList, "STARK".toList] [] []
      = (["STARE".toList, "STARK".toList].filter
          (fun w => ¬ w ∈ [("CRANE".toList : Word)])).headD [] :=
  ⟨by decide, by decide,
    generateNextGuess_endgame
      (GuessAnalysis.mk ['S', 'T', 'A', 'R'] [] []
        [(0, 'S'), (1, 'T'), (2, 'A'), (3, 'R')] [])
      [("CRANE".toList : Word)] ["STARE".toList, "STARK".toList] [] []
      (by decide) (by decide)⟩

theorem firstMaxBy_eq_none {α β : Type} [LinearOrder β] (f : α → β)
    (l : List α) (h : firstMaxBy f l = none) : l = [] := by
  cases l with
  | nil => rfl
  | cons y rest => simp [firstMaxBy] at h

theorem firstMinBy_eq_none {α β : Type} [LinearOrder β] (f : α → β)
    (l : List α) (h : firstMinBy f l = none) : l = [] := by
  cases l with
  | nil => rfl
  | cons y rest => simp [firstMinBy] at h

/-- The common "score the already-filtered list, pick the best or fall back"
tail: the pick is either the fallback or a member of the filtered list. -/
theorem pickScored_cases (prev : List Word) (flist : List Word)
    (g : Word → Word × ℝ) (hg : ∀ w, (g w).1 = w)
    (hf : ∀ w ∈ flist, w ∉ prev) :
    (if (flist.map g).length = 0 then getBestStartingWord
     else ((firstMaxBy Prod.snd (flist.map g)).map Prod.fst).getD [])
      = getBestStartingWord
    ∨ (if (flist.map g).length = 0 then getBestStartingWord
       else ((firstMaxBy Prod.snd (flist.map g)).map Prod.fst).getD []) ∉ prev := by
  by_cases hlen : (flist.map g).length = 0
  · rw [if_pos hlen]
    exact Or.inl rfl
  · rw [if_neg hlen]
    right
    cases hfm : firstMaxBy Prod.snd (flist.map g) with
    | none =>
      exact absurd (List.length_eq_zero.mpr (firstMaxBy_eq_none _ _ hfm)) hlen
    | some e =>
      have hmem := firstMaxBy_mem _ _ _ hfm
      obtain ⟨w, hw, hwe⟩ := List.mem_map.mp hmem
      have hw' : w ∉ prev := hf w hw
      have he1 : e.1 = w := by rw [← hwe, hg]
      simpa [he1] using hw'

theorem entropySection_no_repeat (a : GuessAnalysis)
    (prev remaining avail : List Word) :
    entropySection a prev remaining avail = getBestStartingWord
    ∨ entropySection a prev remaining avail ∉ prev := by
  simp only [entropySection]
  refine pickScored_cases prev _ _ (fun w => rfl) ?_
  intro w hw
  have := (List.mem_filter.mp hw).2
  simpa using this

/-- The beam-search and endgame branches each pick from a list filtered by
"not previously guessed"; these helpers extract that fact. -/
theorem pickFiltered_not_mem (l : List Word) (p : Word → Bool) (f : Word → ℝ)
    (prev : List Word) (himp : ∀ w, p w = true → w ∉ prev)
    (hlen : 0 < (l.filter p).length) :
    (firstMaxBy f (l.filter p)).getD [] ∉ prev := by
  have hne : l.filter p ≠ [] := by
    intro h
    rw [h] at hlen
    simp at hlen
  have hmem := firstMaxBy_getD_mem f _ [] hne
  exact himp _ (List.mem_filter.mp hmem).2

theorem headD_filter_not_mem (l : List Word) (p : Word → Bool)
    (prev : List Word) (himp : ∀ w, p w = true → w ∉ prev)
    (hlen : 0 < (l.filter p).length) :
    (l.filter p).headD [] ∉ prev := by
  have hne : l.filter p ≠ [] := by
    intro h
    rw [h] at hlen
    simp at hlen
  have hmem := headD_mem (l.filter p) [] hne
  exact himp _ (List.mem_filter.mp hmem).2

theorem minimaxBest_not_mem (prev remaining avail : List Word)
    (hms : 0 < (avail.foldl
      (fun m w =>
        if ¬ w ∈ prev then mapSet m w (worstCaseBucket w remaining) else m)
      ([] : List (Word × Nat))).length) :
    ((firstMinBy Prod.snd (avail.foldl
      (fun m w =>
        if ¬ w ∈ prev then mapSet m w (worstCaseBucket w remaining) else m)
      ([] : List (Word × Nat)))).getD ([], 0)).1 ∉ prev := by
  have hne : avail.foldl
      (fun m w =>
        if ¬ w ∈ prev then mapSet m w (worstCaseBucket w remaining) else m)
      ([] : List (Word × Nat)) ≠ [] := by
    intro h
    rw [h] at hms
    simp at hms
  have hmem := firstMinBy_getD_mem Prod.snd _ (([], 0) : Word × Nat) hne
  rcases minimaxFold_mem prev remaining avail [] _ hmem with h | h
  · cases h
  · exact h

theorem minimaxTie_not_mem (prev remaining avail : List Word)
    (q : Word × Nat → Bool) (f : Word → ℝ)
    (htie : 0 < (((avail.foldl
      (fun m w =>
        if ¬ w ∈ prev then mapSet m w (worstCaseBucket w remaining) else m)
      ([] : List (Word × Nat))).filter q).map Prod.fst).length) :
    (firstMaxBy f (((avail.foldl
      (fun m w =>
        if ¬ w ∈ prev then mapSet m w (worstCaseBucket w remaining) else m)
      ([] : List (Word × Nat))).filter q).map Prod.fst)).getD [] ∉ prev := by
  have hne : ((avail.foldl
      (fun m w =>
        if ¬ w ∈ prev then mapSet m w (worstCaseBucket w remaining) else m)
      ([] : List (Word × Nat))).filter q).map Prod.fst ≠ [] := by
    intro h
    rw [h] at htie
    simp at htie
  have hmem := firstMaxBy_getD_mem f _ [] hne
  obtain ⟨e, he, hew⟩ := List.mem_map.mp hmem
  have he' := (List.mem_filter.mp he).1
  rcases minimaxFold_mem prev remaining avail [] _ he' with h | h
  · cases h
  · rw [← hew]
    exact h

/-- **C9 (amended)** The guess selector either falls back to the best
starting word (which it does *not* check against previous guesses) or
returns a word that has not been guessed before: the endgame, minimax,
entropy and beam-search branches all exclude previous guesses. -/
theorem generateNextGuess_no_repeat (a : GuessAnalysis)
    (prev remaining beam300 beam500 : List Word) :
    generateNextGuess a prev remaining beam300 beam500 = getBestStartingWord
    ∨ generateNextGuess a prev remaining beam300 beam500 ∉ prev := by
  simp only [generateNextGuess]
  split_ifs with h0 hv hl hend hmm hms htie
  · exact Or.inr (pickFiltered_not_mem _ _ _ _
      (fun w hw => by
        simp only [Bool.and_eq_true, decide_eq_true_eq] at hw
        exact hw.1) hv)
  · exact Or.inr (pickFiltered_not_mem _ _ _ _
      (fun w hw => by
        simp only [Bool.and_eq_true, decide_eq_true_eq] at hw
        exact hw.1.1) hl)
  · exact Or.inl rfl
  · exact Or.inr (headD_filter_not_mem _ _ _
      (fun w hw => by simpa using hw) hend.2)
  · exact Or.inr (minimaxTie_not_mem _ _ _ _ _ (by omega))
  · exact Or.inr (minimaxBest_not_mem _ _ _ hms)
  · exact entropySection_no_repeat a prev remaining _
  · exact entropySection_no_repeat a prev remaining _

/-- All distinct configured starting words — after eight guesses every
starting word has been played. -/
def allStartingWords : List Word :=
  ["STARE".toList, "CRANE".toList, "SLATE".toList, "TRACE".toList,
   "ADIEU".toList, "AUDIO".toList, "RAISE".toList, "ARISE".toList]

/-- **C9 counterexample** — the selector repeats a guess: with every
starting word already guessed, one remaining candidate that was also
already guessed, and an empty `enumerateCandidates` corpus, the entropy
branch finds nothing and the final fallback returns
`getBestStartingWord`, which is one of the previous guesses.  The claim
that "in every branch the word returned is never one of the words already
guessed" is therefore false. -/
theorem generateNextGuess_repeats_guess :
    generateNextGuess emptyAnalysis allStartingWords ["STARE".toList] [] []
      ∈ allStartingWords := by
  have h1 : generateNextGuess emptyAnalysis allStartingWords ["STARE".toList] [] []
      = getBestStartingWord := rfl
  rw [h1]
  have h2 : getBestStartingWord ∈ startingWords := by
    unfold getBestStartingWord
    exact firstMaxBy_getD_mem _ _ [] (by decide)
  have h3 : ∀ w ∈ startingWords, w ∈ allStartingWords := by decide
  exact h3 _ h2

/-! ### Claim C7 — entropy bounds

Combinatorial layer: `partitionByPattern` groups the secrets by pattern key;
buckets are nonempty, bucket sizes sum to the pool size, keys are distinct,
and each bucket holds exactly the secrets with its key (in pool order). -/

/-- Sum of bucket sizes. -/
def sumLens (pats : List (List Fb × List Word)) : Nat :=
  (pats.map (fun e => e.2.length)).sum

theorem bucketAdd_sumLens (pats : List (List Fb × List Word)) (p : List Fb)
    (sec : Word) : sumLens (bucketAdd pats p sec) = sumLens pats + 1 := by
  induction pats with
  | nil => simp [bucketAdd, sumLens]
  | cons e rest ih =>
    obtain ⟨q, b⟩ := e
    by_cases hq : q = p
    · simp [bucketAdd, hq, sumLens]
      omega
    · simp only [bucketAdd, if_neg hq, sumLens, List.map_cons, List.sum_cons]
      simp only [sumLens] at ih
      omega

theorem partition_sumLens (f : Word → List Fb) (s : List Word)
    (pats : List (List Fb × List Word)) :
    sumLens (s.foldl (fun pats sec => bucketAdd pats (f sec) sec) pats)
      = sumLens pats + s.length := by
  induction s generalizing pats with
  | nil => simp
  | cons sec rest ih =>
    rw [List.foldl_cons, ih, bucketAdd_sumLens]
    simp
    omega

theorem bucketAdd_nonempty (pats : List (List Fb × List Word)) (p : List Fb)
    (sec : Word) (h : ∀ e ∈ pats, e.2 ≠ []) :
    ∀ e ∈ bucketAdd pats p sec, e.2 ≠ [] := by
  induction pats with
  | nil =>
    intro e he
    simp only [bucketAdd, List.mem_singleton] at he
    rw [he]
    simp
  | cons q rest ih =>
    intro e he
    by_cases hq : q.1 = p
    · rw [show bucketAdd (q :: rest) p sec = (q.1, q.2 ++ [sec]) :: rest from by
        simp only [bucketAdd, if_pos hq]] at he
      rcases List.mem_cons.mp he with h1 | h1
      · rw [h1]; simp
      · exact h e (List.mem_cons_of_mem q h1)
    · rw [show bucketAdd (q :: rest) p sec = q :: bucketAdd rest p sec from by
        simp only [bucketAdd, if_neg hq]] at he
      rcases List.mem_cons.mp he with h1 | h1
      · rw [h1]; exact h q (List.mem_cons_self q rest)
      · exact ih (fun x hx => h x (List.mem_cons_of_mem q hx)) e h1

theorem partition_nonempty (f : Word → List Fb) (s : List Word)
    (pats : List (List Fb × List Word)) (h : ∀ e ∈ pats, e.2 ≠ []) :
    ∀ e ∈ s.foldl (fun pats sec => bucketAdd pats (f sec) sec) pats, e.2 ≠ [] := by
  induction s generalizing pats with
  | nil => exact h
  | cons sec rest ih =>
    rw [List.foldl_cons]
    exact ih _ (bucketAdd_nonempty pats (f sec) sec h)

theorem bucketAdd_new_key (pats : List (List Fb × List Word)) (p : List Fb)
    (sec : Word) (h : p ∉ pats.map Prod.fst) :
    bucketAdd pats p sec = pats ++ [(p, [sec])] := by
  induction pats with
  | nil => rfl
  | cons q rest ih =>
    have hq : ¬ q.1 = p := by
      intro hh
      exact h (by rw [← hh]; exact List.mem_map_of_mem Prod.fst (List.mem_cons_self q rest))
    simp only [bucketAdd, if_neg hq, List.cons_append]
    rw [ih (fun hh => h (List.mem_cons_of_mem _ hh))]

theorem bucketAdd_existing_key (pats : List (List Fb × List Word)) (p : List Fb)
    (sec : Word) (hnd : (pats.map Prod.fst).Nodup) (h : p ∈ pats.map Prod.fst) :
    bucketAdd pats p sec
      = pats.map (fun e => if e.1 = p then (e.1, e.2 ++ [sec]) else e) := by
  induction pats with
  | nil => cases h
  | cons q rest ih =>
    have hnd2 : (q.1 :: rest.map Prod.fst).Nodup := by
      rw [List.map_cons] at hnd; exact hnd
    have hnd' := List.nodup_cons.mp hnd2
    by_cases hq : q.1 = p
    · simp only [bucketAdd, if_pos hq, List.map_cons, if_pos hq]
      have hrest : rest.map (fun e => if e.1 = p then (e.1, e.2 ++ [sec]) else e)
          = rest := by
        calc rest.map (fun e => if e.1 = p then (e.1, e.2 ++ [sec]) else e)
            = rest.map id := by
              apply List.map_congr_left
              intro e he
              have : ¬ e.1 = p := by
                intro hh
                exact hnd'.1 (by rw [hq, ← hh]; exact List.mem_map_of_mem Prod.fst he)
              rw [if_neg this]
              rfl
          _ = rest := List.map_id rest
      rw [hrest]
    · simp only [bucketAdd, if_neg hq, List.map_cons, if_neg hq]
      have h' : p ∈ rest.map Prod.fst := by
        rcases List.mem_map.mp h with ⟨e, he, hep⟩
        rcases List.mem_cons.mp he with h1 | h1
        · exact absurd (by rw [← h1]; exact hep) hq
        · exact hep ▸ List.mem_map_of_mem Prod.fst h1
      rw [ih hnd'.2 h']

/-- The grouping invariant of `partitionByPattern`: distinct keys, each
bucket is the filter of the processed secrets by its key, and every
processed secret's key occurs. -/
def groupInv (f : Word → List Fb) (pats : List (List Fb × List Word))
    (done : List Word) : Prop :=
  ((pats.map Prod.fst).Nodup)
  ∧ (∀ e ∈ pats, e.2 = done.filter (fun x => f x = e.1))
  ∧ (∀ x ∈ done, f x ∈ pats.map Prod.fst)

theorem groupInv_step (f : Word → List Fb) (pats : List (List Fb × List Word))
    (done : List Word) (sec : Word) (h : groupInv f pats done) :
    groupInv f (bucketAdd pats (f sec) sec) (done ++ [sec]) := by
  obtain ⟨hnd, hinv, hkey⟩ := h
  by_cases hp : f sec ∈ pats.map Prod.fst
  · rw [bucketAdd_existing_key pats (f sec) sec hnd hp]
    refine ⟨?_, ?_, ?_⟩
    · have : (pats.map (fun e => if e.1 = f sec then (e.1, e.2 ++ [sec]) else e)).map
          Prod.fst = pats.map Prod.fst := by
        rw [List.map_map]
        apply List.map_congr_left
        intro e _
        by_cases he : e.1 = f sec <;> simp [he]
      rw [this]
      exact hnd
    · intro e' he'
      rcases List.mem_map.mp he' with ⟨e, he, hee⟩
      by_cases he1 : e.1 = f sec
      · rw [if_pos he1] at hee
        rw [← hee]
        simp only
        rw [List.filter_append, hinv e he, he1]
        simp
      · rw [if_neg he1] at hee
        rw [← hee, List.filter_append, hinv e he]
        have : ¬ f sec = e.1 := fun hh => he1 hh.symm
        simp [this]
    · intro x hx
      have hkeys : (pats.map (fun e => if e.1 = f sec then (e.1, e.2 ++ [sec]) else e)).map
          Prod.fst = pats.map Prod.fst := by
        rw [List.map_map]
        apply List.map_congr_left
        intro e _
        by_cases he : e.1 = f sec <;> simp [he]
      rw [hkeys]
      rcases List.mem_append.mp hx with h1 | h1
      · exact hkey x h1
      · simp only [List.mem_singleton] at h1
        rw [h1]
        exact hp
  · rw [bucketAdd_new_key pats (f sec) sec hp]
    refine ⟨?_, ?_, ?_⟩
    · rw [List.map_append]
      simp only [List.map_cons, List.map_nil]
      rw [List.nodup_append]
      exact ⟨hnd, List.nodup_singleton _, by
        intro k hk
        simp only [List.mem_singleton]
        intro hk2
        exact hp (hk2 ▸ hk)⟩
    · intro e he
      rcases List.mem_append.mp he with h1 | h1
      · rw [hinv e h1, List.filter_append]
        have : ¬ f sec = e.1 := by
          intro hh
          exact hp (hh ▸ List.mem_map_of_mem Prod.fst h1)
        simp [this]
      · simp only [List.mem_singleton] at h1
        rw [h1]
        simp only
        rw [List.filter_append]
        have hdone : done.filter (fun x => f x = f sec) = [] := by
          rw [List.filter_eq_nil_iff]
          intro x hx
          simp only [decide_eq_true_eq]
          intro hh
          exact hp (hh ▸ hkey x hx)
        rw [hdone]
        simp
    · intro x hx
      rw [List.map_append]
      rcases List.mem_append.mp hx with h1 | h1
      · exact List.mem_append.mpr (Or.inl (hkey x h1))
      · simp only [List.mem_singleton] at h1
        rw [h1]
        exact List.mem_append.mpr (Or.inr (by simp))

theorem groupInv_fold (f : Word → List Fb) (s : List Word)
    (pats : List (List Fb × List Word)) (done : List Word)
    (h : groupInv f pats done) :
    groupInv f (s.foldl (fun pats sec => bucketAdd pats (f sec) sec) pats)
      (done ++ s) := by
  induction s generalizing pats done with
  | nil => simpa using h
  | cons sec rest ih =>
    rw [List.foldl_cons]
    have := ih (bucketAdd pats (f sec) sec) (done ++ [sec]) (groupInv_step f pats done sec h)
    simpa using this

theorem partition_groupInv (guess : Word) (s : List Word) :
    groupInv (computePattern guess) (partitionByPattern guess s) s := by
  have h0 : groupInv (computePattern guess) [] [] := by
    refine ⟨List.nodup_nil, ?_, ?_⟩ <;> simp
  have := groupInv_fold (computePattern guess) s [] [] h0
  simpa [partitionByPattern] using this

theorem list_sum_nonpos (l : List ℝ) (h : ∀ x ∈ l, x ≤ 0) : l.sum ≤ 0 := by
  induction l with
  | nil => simp
  | cons a t ih =>
    rw [List.sum_cons]
    have h1 := h a (List.mem_cons_self a t)
    have h2 := ih (fun x hx => h x (List.mem_cons_of_mem a hx))
    linarith

theorem list_len_le_sum (l : List ℕ) (h : ∀ x ∈ l, 1 ≤ x) : l.length ≤ l.sum := by
  induction l with
  | nil => simp
  | cons a t ih =>
    rw [List.sum_cons, List.length_cons]
    have h1 := h a (List.mem_cons_self a t)
    have h2 := ih (fun x hx => h x (List.mem_cons_of_mem a hx))
    omega

theorem list_len_lt_sum (l : List ℕ) (h : ∀ x ∈ l, 1 ≤ x)
    (h2 : ∃ x ∈ l, 2 ≤ x) : l.length < l.sum := by
  induction l with
  | nil => simp at h2
  | cons a t ih =>
    rw [List.sum_cons, List.length_cons]
    have h1 := h a (List.mem_cons_self a t)
    rcases h2 with ⟨x, hx, hx2⟩
    rcases List.mem_cons.mp hx with h3 | h3
    · have := list_len_le_sum t (fun y hy => h y (List.mem_cons_of_mem a hy))
      omega
    · have := ih (fun y hy => h y (List.mem_cons_of_mem a hy)) ⟨x, h3, hx2⟩
      omega

theorem partition_bucket_count (guess : Word) (s : List Word)
    (e : List Fb × List Word) (he : e ∈ partitionByPattern guess s) :
    e.2.length = s.countP (fun x => computePattern guess x = e.1) := by
  obtain ⟨_, hinv, _⟩ := partition_groupInv guess s
  rw [hinv e he, ← List.countP_eq_length_filter]

theorem nodup_iff_countP_le_one {α : Type} [DecidableEq α] (l : List α) :
    l.Nodup ↔ ∀ a, l.countP (fun x => x = a) ≤ 1 := by
  induction l with
  | nil => simp
  | cons b t ih =>
    rw [List.nodup_cons, ih]
    constructor
    · rintro ⟨hb, ht⟩ a
      rw [List.countP_cons]
      by_cases hba : b = a
      · have hz : t.countP (fun x => x = a) = 0 := by
          rw [List.countP_eq_zero]
          intro x hx
          simp only [decide_eq_true_eq]
          intro hxa
          exact hb (by rw [hba, ← hxa]; exact hx)
        simp [hz, hba]
      · have := ht a
        simp [hba]
        omega
    · intro h
      constructor
      · intro hbt
        have h1 : 1 ≤ t.countP (fun x => x = b) := by
          rw [Nat.one_le_iff_ne_zero]
          intro h0
          rw [List.countP_eq_zero] at h0
          exact absurd (by simp : (decide (b = b)) = true) (by simpa using h0 b hbt)
        have h2 := h b
        rw [List.countP_cons] at h2
        by_cases hc : (decide (b = b) = true)
        · rw [if_pos hc] at h2
          omega
        · simp at hc
      · intro a
        have := h a
        rw [List.countP_cons] at this
        omega

theorem partition_nodup_iff (guess : Word) (s : List Word) :
    (s.map (computePattern guess)).Nodup
      ↔ ∀ e ∈ partitionByPattern guess s, e.2.length = 1 := by
  obtain ⟨hnd, hinv, hkey⟩ := partition_groupInv guess s
  have hcount : ∀ a : List Fb,
      (s.map (computePattern guess)).countP (fun x => x = a)
        = s.countP (fun x => computePattern guess x = a) := by
    intro a
    rw [List.countP_map]
    apply List.countP_congr
    intro x _
    simp [Function.comp]
  rw [nodup_iff_countP_le_one]
  constructor
  · intro h e he
    have h1 : 1 ≤ e.2.length :=
      Nat.one_le_iff_ne_zero.mpr (fun h0 =>
        (partition_nonempty (computePattern guess) s [] (by simp) e
          (by simpa [partitionByPattern] using he))
          (List.length_eq_zero.mp h0))
    have h2 : e.2.length ≤ 1 := by
      rw [partition_bucket_count guess s e he, ← hcount e.1]
      exact h e.1
    omega
  · intro h a
    rw [hcount a]
    by_cases hk : ∃ e ∈ partitionByPattern guess s, e.1 = a
    · rcases hk with ⟨e, he, hea⟩
      rw [← hea, ← partition_bucket_count guess s e he]
      exact le_of_eq (h e he)
    · by_cases hz : s.countP (fun x => computePattern guess x = a) = 0
      · omega
      · exfalso
        have hpos : 0 < s.countP (fun x => computePattern guess x = a) := by omega
        rw [List.countP_pos_iff] at hpos
        rcases hpos with ⟨x, hx, hfx⟩
        simp only [decide_eq_true_eq] at hfx
        have := hkey x hx
        rw [hfx] at this
        rcases List.mem_map.mp this with ⟨e, he, hea⟩
        exact hk ⟨e, he, hea⟩

theorem partition_sum_eq (guess : Word) (s : List Word) :
    sumLens (partitionByPattern guess s) = s.length := by
  have := partition_sumLens (computePattern guess) s []
  simpa [partitionByPattern, sumLens] using this

theorem partition_len_le (guess : Word) (s : List Word) :
    (partitionByPattern guess s).length ≤ s.length := by
  have hsum := partition_sum_eq guess s
  have hN := partition_nonempty (computePattern guess) s [] (by simp)
  rw [← hsum]
  have : (partitionByPattern guess s).length
      = ((partitionByPattern guess s).map (fun e => e.2.length)).length := by
    simp
  rw [this, sumLens]
  apply list_len_le_sum
  intro x hx
  rcases List.mem_map.mp hx with ⟨e, he, hex⟩
  have := hN e (by simpa [partitionByPattern] using he)
  rw [← hex]
  exact Nat.one_le_iff_ne_zero.mpr (fun h0 => this (List.length_eq_zero.mp h0))

theorem partition_len_lt (guess : Word) (s : List Word)
    (h : ¬ (s.map (computePattern guess)).Nodup) :
    (partitionByPattern guess s).length < s.length := by
  have hsum := partition_sum_eq guess s
  have hN := partition_nonempty (computePattern guess) s [] (by simp)
  rw [partition_nodup_iff] at h
  push_neg at h
  rcases h with ⟨e, he, hlen⟩
  have h1 : 1 ≤ e.2.length :=
    Nat.one_le_iff_ne_zero.mpr (fun h0 =>
      (hN e (by simpa [partitionByPattern] using he)) (List.length_eq_zero.mp h0))
  rw [← hsum]
  have : (partitionByPattern guess s).length
      = ((partitionByPattern guess s).map (fun e => e.2.length)).length := by
    simp
  rw [this, sumLens]
  apply list_len_lt_sum
  · intro x hx
    rcases List.mem_map.mp hx with ⟨e', he', hex⟩
    have := hN e' (by simpa [partitionByPattern] using he')
    rw [← hex]
    exact Nat.one_le_iff_ne_zero.mpr (fun h0 => this (List.length_eq_zero.mp h0))
  · exact ⟨e.2.length, List.mem_map_of_mem _ he, by omega⟩

/-- Analytic core: for positive weights summing to `1`, the Shannon entropy
`-Σ wᵢ log₂ wᵢ` is at most `log₂ k` (Jensen's inequality for the concave
`Real.log`, applied to the points `wᵢ⁻¹`). -/
theorem neg_sum_w_logb_le (k : ℕ) (w : Fin k → ℝ) (hw0 : ∀ i, 0 < w i)
    (hwsum : ∑ i, w i = 1) :
    0 - ∑ i, w i * Real.logb 2 (w i) ≤ Real.logb 2 (k : ℝ) := by
  have hlog2 : 0 < Real.log 2 := Real.log_pos one_lt_two
  have hj := (strictConcaveOn_log_Ioi.concaveOn).le_map_sum
      (t := Finset.univ) (w := w) (p := fun i => (w i)⁻¹)
      (fun i _ => (hw0 i).le) hwsum
      (fun i _ => Set.mem_Ioi.mpr (inv_pos.mpr (hw0 i)))
  have hsum1 : ∑ i, w i • (w i)⁻¹ = (k : ℝ) := by
    have hone : ∀ i ∈ Finset.univ, w i • (w i)⁻¹ = (1 : ℝ) := fun i _ => by
      rw [smul_eq_mul, mul_inv_cancel₀ (hw0 i).ne']
    rw [Finset.sum_congr rfl hone]
    simp
  rw [hsum1] at hj
  have hlhs : ∑ i, w i • Real.log (w i)⁻¹ = 0 - ∑ i, w i * Real.log (w i) := by
    have hterm : ∀ i ∈ Finset.univ,
        w i • Real.log (w i)⁻¹ = -(w i * Real.log (w i)) := fun i _ => by
      rw [smul_eq_mul, Real.log_inv]
      ring
    rw [Finset.sum_congr rfl hterm, Finset.sum_neg_distrib]
    ring
  rw [hlhs] at hj
  have hlogb : ∑ i, w i * Real.logb 2 (w i)
      = (∑ i, w i * Real.log (w i)) / Real.log 2 := by
    rw [Finset.sum_div]
    apply Finset.sum_congr rfl
    intro i _
    rw [Real.logb]
    ring
  rw [hlogb, ← Real.log_div_log]
  rw [show (0 : ℝ) - (∑ i, w i * Real.log (w i)) / Real.log 2
      = (0 - ∑ i, w i * Real.log (w i)) / Real.log 2 from by ring]
  exact div_le_div_of_nonneg_right hj hlog2.le

theorem entropyOf_eq_finSum (guess : Word) (secrets : List Word) :
    entropyOf guess secrets
      = 0 - ∑ i : Fin (partitionByPattern guess secrets).length,
          ((((partitionByPattern guess secrets).get i).2.length : ℝ)
              / (secrets.length : ℝ))
            * Real.logb 2
              ((((partitionByPattern guess secrets).get i).2.length : ℝ)
                / (secrets.length : ℝ)) := by
  simp only [entropyOf]
  congr 1
  conv_lhs => rw [← List.ofFn_get (partitionByPattern guess secrets)]
  rw [List.map_ofFn, List.sum_ofFn]
  rfl

theorem partition_finSum_lens (guess : Word) (secrets : List Word) :
    ∑ i : Fin (partitionByPattern guess secrets).length,
        (((partitionByPattern guess secrets).get i).2.length : ℝ)
      = (secrets.length : ℝ) := by
  have h1 : ((partitionByPattern guess secrets).map (fun e => e.2.length)).sum
      = secrets.length := partition_sum_eq guess secrets
  have h2 : ((partitionByPattern guess secrets).map (fun e => e.2.length)).sum
      = ∑ i : Fin (partitionByPattern guess secrets).length,
          ((partitionByPattern guess secrets).get i).2.length := by
    conv_lhs => rw [← List.ofFn_get (partitionByPattern guess secrets)]
    rw [List.map_ofFn, List.sum_ofFn]
    rfl
  rw [h2] at h1
  calc ∑ i : Fin (partitionByPattern guess secrets).length,
        (((partitionByPattern guess secrets).get i).2.length : ℝ)
      = ((∑ i : Fin (partitionByPattern guess secrets).length,
          ((partitionByPattern guess secrets).get i).2.length : ℕ) : ℝ) := by
        push_cast
        rfl
    _ = (secrets.length : ℝ) := by rw [h1]

theorem partition_get_mem (guess : Word) (secrets : List Word)
    (i : Fin (partitionByPattern guess secrets).length) :
    (partitionByPattern guess secrets).get i ∈ partitionByPattern guess secrets := by
  exact List.get_mem (partitionByPattern guess secrets) i.1 i.2

theorem partition_get_len_pos (guess : Word) (secrets : List Word)
    (i : Fin (partitionByPattern guess secrets).length) :
    0 < ((partitionByPattern guess secrets).get i).2.length := by
  have hN := partition_nonempty (computePattern guess) secrets [] (by simp)
  have hmem := partition_get_mem guess secrets i
  have := hN _ hmem
  exact List.length_pos.mpr this

theorem partition_get_len_le (guess : Word) (secrets : List Word)
    (i : Fin (partitionByPattern guess secrets).length) :
    ((partitionByPattern guess secrets).get i).2.length ≤ secrets.length := by
  have hmem := partition_get_mem guess secrets i
  have h1 : ((partitionByPattern guess secrets).get i).2.length
      ∈ (partitionByPattern guess secrets).map (fun e => e.2.length) :=
    List.mem_map_of_mem _ hmem
  have h2 := List.le_sum_of_mem h1
  have h3 : ((partitionByPattern guess secrets).map (fun e => e.2.length)).sum
      = secrets.length := partition_sum_eq guess secrets
  omega

theorem partition_length_pos (guess : Word) (secrets : List Word)
    (hne : secrets ≠ []) : 0 < (partitionByPattern guess secrets).length := by
  by_contra h
  push_neg at h
  have h0 : (partitionByPattern guess secrets).length = 0 := by omega
  have := partition_sum_eq guess secrets
  rw [List.length_eq_zero.mp h0] at this
  simp [sumLens] at this
  exact hne (List.length_eq_zero.mp this.symm)

/-- **C7** Entropy bounds: for every guess and non-empty pool of `n`
secrets, the feedback-partition entropy lies in `[0, log₂ n]`, with equality
at the top iff every secret in the pool yields a distinct feedback pattern. -/
theorem entropyOf_bounds (guess : Word) (secrets : List Word)
    (hne : secrets ≠ []) :
    0 ≤ entropyOf guess secrets
    ∧ entropyOf guess secrets ≤ Real.logb 2 (secrets.length : ℝ)
    ∧ (entropyOf guess secrets = Real.logb 2 (secrets.length : ℝ)
        ↔ (secrets.map (computePattern guess)).Nodup) := by
  have hn : 0 < secrets.length := List.length_pos.mpr hne
  have hnR : (0 : ℝ) < (secrets.length : ℝ) := by exact_mod_cast hn
  have hk : 0 < (partitionByPattern guess secrets).length :=
    partition_length_pos guess secrets hne
  have hkR : (0 : ℝ) < ((partitionByPattern guess secrets).length : ℝ) := by
    exact_mod_cast hk
  -- the weights
  have hw0 : ∀ i : Fin (partitionByPattern guess secrets).length,
      0 < (((partitionByPattern guess secrets).get i).2.length : ℝ)
        / (secrets.length : ℝ) := by
    intro i
    apply div_pos _ hnR
    exact_mod_cast partition_get_len_pos guess secrets i
  have hwsum : ∑ i : Fin (partitionByPattern guess secrets).length,
      (((partitionByPattern guess secrets).get i).2.length : ℝ)
        / (secrets.length : ℝ) = 1 := by
    rw [← Finset.sum_div, partition_finSum_lens, div_self hnR.ne']
  -- upper bound by the number of buckets (Jensen)
  have hupk : entropyOf guess secrets
      ≤ Real.logb 2 ((partitionByPattern guess secrets).length : ℝ) := by
    rw [entropyOf_eq_finSum]
    exact neg_sum_w_logb_le _ _ hw0 hwsum
  have hkn : Real.logb 2 ((partitionByPattern guess secrets).length : ℝ)
      ≤ Real.logb 2 (secrets.length : ℝ) := by
    apply Real.logb_le_logb_of_le (by norm_num) hkR
    exact_mod_cast partition_len_le guess secrets
  refine ⟨?_, le_trans hupk hkn, ?_⟩
  · -- lower bound: every term of the bucket sum is nonpositive
    simp only [entropyOf]
    have hterms : ∀ x ∈ (partitionByPattern guess secrets).map (fun e =>
        ((e.2.length : ℝ) / (secrets.length : ℝ))
          * Real.logb 2 ((e.2.length : ℝ) / (secrets.length : ℝ))), x ≤ 0 := by
      intro x hx
      rcases List.mem_map.mp hx with ⟨e, he, hex⟩
      have hlen : e.2.length ≤ secrets.length := by
        have h1 : e.2.length
            ∈ (partitionByPattern guess secrets).map (fun e => e.2.length) :=
          List.mem_map_of_mem _ he
        have h2 := List.le_sum_of_mem h1
        have h3 : ((partitionByPattern guess secrets).map
            (fun e => e.2.length)).sum = secrets.length :=
          partition_sum_eq guess secrets
        omega
      have hw1 : (e.2.length : ℝ) / (secrets.length : ℝ) ≤ 1 := by
        rw [div_le_one hnR]
        exact_mod_cast hlen
      have hw2 : (0 : ℝ) ≤ (e.2.length : ℝ) / (secrets.length : ℝ) := by
        apply div_nonneg _ hnR.le
        exact_mod_cast Nat.zero_le _
      have hlogle : Real.logb 2 ((e.2.length : ℝ) / (secrets.length : ℝ)) ≤ 0 :=
        Real.logb_nonpos (by norm_num) hw2 hw1
      rw [← hex]
      calc ((e.2.length : ℝ) / (secrets.length : ℝ))
            * Real.logb 2 ((e.2.length : ℝ) / (secrets.length : ℝ))
          ≤ ((e.2.length : ℝ) / (secrets.length : ℝ)) * 0 :=
            mul_le_mul_of_nonneg_left hlogle hw2
        _ = 0 := by ring
    have := list_sum_nonpos _ hterms
    linarith
  · constructor
    · -- equality forces all patterns distinct
      intro heq
      by_contra hnd
      have hlt := partition_len_lt guess secrets hnd
      have : Real.logb 2 ((partitionByPattern guess secrets).length : ℝ)
          < Real.logb 2 (secrets.length : ℝ) := by
        apply Real.logb_lt_logb (by norm_num) hkR
        exact_mod_cast hlt
      linarith [hupk]
    · -- all patterns distinct: every bucket is a singleton and k = n
      intro hnd
      have hall := (partition_nodup_iff guess secrets).mp hnd
      have hkn' : (partitionByPattern guess secrets).length = secrets.length := by
        have hsum := partition_sum_eq guess secrets
        have hrep : ((partitionByPattern guess secrets).map (fun e => e.2.length))
            = List.replicate
              ((partitionByPattern guess secrets).map (fun e => e.2.length)).length
              1 := by
          apply List.eq_replicate_of_mem
          intro x hx
          rcases List.mem_map.mp hx with ⟨e, he, hex⟩
          rw [← hex]
          exact hall e he
        rw [sumLens, hrep] at hsum
        simpa using hsum
      rw [entropyOf_eq_finSum]
      have hterm : ∀ i : Fin (partitionByPattern guess secrets).length,
          ((((partitionByPattern guess secrets).get i).2.length : ℝ)
              / (secrets.length : ℝ))
            * Real.logb 2
              ((((partitionByPattern guess secrets).get i).2.length : ℝ)
                / (secrets.length : ℝ))
          = (1 / (secrets.length : ℝ))
              * Real.logb 2 (1 / (secrets.length : ℝ)) := by
        intro i
        rw [hall _ (partition_get_mem guess secrets i)]
        norm_num
      rw [Finset.sum_congr rfl (fun i _ => hterm i), Finset.sum_const,
        Finset.card_univ, Fintype.card_fin, hkn']
      rw [nsmul_eq_mul]
      rw [show (1 : ℝ) / (secrets.length : ℝ) = ((secrets.length : ℝ))⁻¹ from
        one_div _]
      rw [Real.logb_inv]
      field_simp

/-- Witness for C7: a singleton pool — the entropy is `0 = log₂ 1` and the
single pattern is trivially distinct. -/
theorem entropyOf_bounds_witness :
    (["ABIDE".toList] ≠ ([] : List Word))
    ∧ (0 ≤ entropyOf "SPEED".toList ["ABIDE".toList]
      ∧ entropyOf "SPEED".toList ["ABIDE".toList]
          ≤ Real.logb 2 (([("ABIDE".toList : Word)].length : ℝ))
      ∧ (entropyOf "SPEED".toList ["ABIDE".toList]
            = Real.logb 2 (([("ABIDE".toList : Word)].length : ℝ))
          ↔ ([("ABIDE".toList : Word)].map
              (computePattern "SPEED".toList)).Nodup)) :=
  ⟨by decide, entropyOf_bounds "SPEED".toList ["ABIDE".toList] (by decide)⟩

end WordleBot
